import Mathlib

/-!
Verification of the syzkaller `prog` package checksum engine and program IR,
shallowly embedded in Lean.  The repository copy at hand contains the test
suite of the checksum engine (`checksum_test.go`); the engine itself
(`ipChecksum`, `IPChecksum`, `calcChecksumIPv4`, `calcChecksumsCall`), the
serializer/deserializer and the generator/mutator are modelled from the
specification, faithful to its words, and checked against the golden values
kept in the test suite.
-/

namespace SyzProg

/-- Modelled from the spec: the carry-folding step of the one's-complement
checksum, "folding carries beyond 16 bits back into the low 16 bits".
Mirrors the loop `for acc > 0xffff { acc = acc>>16 + acc&0xffff }`. -/
def foldCarry (n : Nat) : Nat :=
  if n ≤ 0xffff then n else foldCarry (n / 65536 + n % 65536)
decreasing_by
  simp_wf
  omega

/-- Modelled from the spec: the incremental accumulator state — "a running
sum with deferred carry folding until Digest()" plus "an odd-byte remainder
carried across Update calls".  (`IPChecksum` in the source.) -/
structure IPChecksum where
  acc : Nat
  odd : Option Nat
deriving Repr, DecidableEq

/-- Modelled from the spec: feed bytes to the accumulator one by one,
pairing each pending odd byte (high) with the next byte (low) into a
16-bit big-endian word added to the running sum. -/
def updateState : IPChecksum → List Nat → IPChecksum
  | s, [] => s
  | ⟨acc, none⟩, b :: rest => updateState ⟨acc, some b⟩ rest
  | ⟨acc, some a⟩, b :: rest => updateState ⟨acc + (a * 256 + b), none⟩ rest

/-- Modelled from the spec: `Update(chunk)` — chunks of arbitrary (including
odd) length and arbitrary count. -/
def IPChecksum.Update (s : IPChecksum) (chunk : List Nat) : IPChecksum :=
  updateState s chunk

/-- The pre-complement sum held by an accumulator state: the running sum
plus a final zero-padded word for the pending odd byte (the odd trailing
byte is "treated as the high byte of a final zero-padded 16-bit word"). -/
def stateSum (s : IPChecksum) : Nat :=
  s.acc + (match s.odd with | some a => a * 256 | none => 0)

/-- Modelled from the spec: `Digest()` — fold the carries of the running
sum and return the 16-bit bitwise complement. -/
def IPChecksum.Digest (s : IPChecksum) : Nat :=
  0xffff - foldCarry (stateSum s)

/-- The fresh accumulator. -/
def IPChecksum.init : IPChecksum := ⟨0, none⟩

/-- Modelled from the spec: the pair checksum `ipChecksum` — the
one's-complement-of-one's-complement-sum of a byte sequence, obtained by
feeding the whole sequence to a fresh accumulator and taking its digest. -/
def ipChecksum (data : List Nat) : Nat :=
  (IPChecksum.init.Update data).Digest

/-- The 16-bit big-endian words of a byte sequence: consecutive byte pairs
`a, b` become `a*256 + b`; an odd trailing byte becomes the high byte of a
zero-padded word. -/
def beWords : List Nat → List Nat
  | [] => []
  | [b] => [b * 256]
  | a :: b :: rest => (a * 256 + b) :: beWords rest

/-! ### Basic lemmas about the accumulator -/

theorem updateState_append (d1 d2 : List Nat) :
    ∀ s : IPChecksum, updateState s (d1 ++ d2) = updateState (updateState s d1) d2 := by
  induction d1 with
  | nil => intro s; obtain ⟨acc, _ | a⟩ := s <;> simp [updateState]
  | cons b rest ih =>
    intro s
    obtain ⟨acc, _ | a⟩ := s
    · simpa [updateState] using ih _
    · simpa [updateState] using ih _

theorem stateSum_updateState_none :
    ∀ (d : List Nat) (acc : Nat),
      stateSum (updateState ⟨acc, none⟩ d) = acc + (beWords d).sum
  | [], acc => by simp [updateState, stateSum, beWords]
  | [b], acc => by simp [updateState, stateSum, beWords]
  | a :: b :: rest, acc => by
    show stateSum (updateState ⟨acc + (a * 256 + b), none⟩ rest) = _
    rw [stateSum_updateState_none rest]
    simp [beWords]
    ring

/-- The pair checksum as a closed formula: complement of the folded sum of
the big-endian 16-bit words. -/
theorem ipChecksum_eq_words (d : List Nat) :
    ipChecksum d = 0xffff - foldCarry ((beWords d).sum) := by
  unfold ipChecksum IPChecksum.Update IPChecksum.Digest IPChecksum.init
  rw [show (⟨0, none⟩ : IPChecksum) = ⟨0, none⟩ from rfl]
  rw [stateSum_updateState_none]
  simp

/-! ### Carry-folding arithmetic -/

theorem foldCarry_le (n : Nat) : foldCarry n ≤ 0xffff := by
  induction n using Nat.strong_induction_on with
  | _ n ih =>
    rw [foldCarry]
    split
    · omega
    · exact ih _ (by omega)

theorem foldCarry_le_self (n : Nat) : foldCarry n ≤ n := by
  induction n using Nat.strong_induction_on with
  | _ n ih =>
    rw [foldCarry]
    split
    · omega
    · exact le_trans (ih _ (by omega)) (by omega)

theorem foldCarry_mod (n : Nat) : foldCarry n % 65535 = n % 65535 := by
  induction n using Nat.strong_induction_on with
  | _ n ih =>
    rw [foldCarry]
    split
    · rfl
    · rw [ih _ (by omega)]
      omega

theorem foldCarry_pos (n : Nat) (h : 0 < n) : 0 < foldCarry n := by
  induction n using Nat.strong_induction_on with
  | _ n ih =>
    rw [foldCarry]
    split
    · omega
    · exact ih _ (by omega) (by omega)

theorem foldCarry_of_le (n : Nat) (h : n ≤ 0xffff) : foldCarry n = n := by
  rw [foldCarry]
  simp [h]

/-- A positive multiple of `0xffff` folds to exactly `0xffff`. -/
theorem foldCarry_multiple (n : Nat) (hpos : 0 < n) (hmod : n % 65535 = 0) :
    foldCarry n = 0xffff := by
  have h1 := foldCarry_le n
  have h2 := foldCarry_mod n
  have h3 := foldCarry_pos n hpos
  omega

/-- Fuel-indexed version of `foldCarry`, used to evaluate on concrete
inputs (the well-founded recursion does not reduce in the kernel). -/
def foldCarryFuel : Nat → Nat → Nat
  | 0, n => n
  | fuel + 1, n => if n ≤ 0xffff then n else foldCarryFuel fuel (n / 65536 + n % 65536)

theorem foldCarry_eq_fuel : ∀ (fuel n : Nat), n ≤ fuel → foldCarry n = foldCarryFuel fuel n := by
  intro fuel
  induction fuel with
  | zero =>
    intro n h
    have : n = 0 := by omega
    subst this
    rw [foldCarry]
    rfl
  | succ fuel ih =>
    intro n h
    rw [foldCarry]
    unfold foldCarryFuel
    split
    · rfl
    · exact ih _ (by omega)

/-- Evaluation form of the pair checksum: all parts structural, so concrete
instances compute by `decide`. -/
theorem ipChecksum_eval (d : List Nat) :
    ipChecksum d = 0xffff - foldCarryFuel ((beWords d).sum) ((beWords d).sum) := by
  rw [ipChecksum_eq_words, foldCarry_eq_fuel _ _ le_rfl]

/-- Feeding chunks one at a time is the same as feeding their concatenation. -/
theorem foldl_Update_eq (chunks : List (List Nat)) :
    ∀ s : IPChecksum, chunks.foldl IPChecksum.Update s = s.Update chunks.flatten := by
  induction chunks with
  | nil => intro s; obtain ⟨acc, _ | a⟩ := s <;> simp [IPChecksum.Update, updateState]
  | cons c rest ih =>
    intro s
    simp only [List.foldl_cons, List.flatten_cons, ih]
    unfold IPChecksum.Update
    rw [updateState_append]

/-- All ten golden vectors of `TestChecksumIP` hold for the modelled
`ipChecksum`. -/
theorem ipChecksum_golden :
    ipChecksum [] = 0xffff ∧
    ipChecksum [0x00] = 0xffff ∧
    ipChecksum [0x00, 0x00] = 0xffff ∧
    ipChecksum [0x00, 0x00, 0xff, 0xff] = 0x0000 ∧
    ipChecksum [0xfc] = 0x03ff ∧
    ipChecksum [0xfc, 0x12] = 0x03ed ∧
    ipChecksum [0xfc, 0x12, 0x3e] = 0xc5ec ∧
    ipChecksum [0xfc, 0x12, 0x3e, 0x00, 0xc5, 0xec] = 0x0000 ∧
    ipChecksum [0x42, 0x00, 0x00, 0x43, 0x44, 0x00, 0x00, 0x00, 0x45, 0x00,
      0x00, 0x00, 0xba, 0xaa, 0xbb, 0xcc, 0xdd] = 0xe143 ∧
    ipChecksum [0x00, 0x00, 0x42, 0x00, 0x00, 0x43, 0x44, 0x00, 0x00, 0x00,
      0x45, 0x00, 0x00, 0x00, 0xba, 0xaa, 0xbb, 0xcc, 0xdd] = 0xe143 := by
  refine ⟨?_, ?_, ?_, ?_, ?_, ?_, ?_, ?_, ?_, ?_⟩ <;>
    · rw [ipChecksum_eval]
      decide

/-! ### Claim theorems for the pair checksum and the accumulator -/

/-- C2: for every byte sequence and every partition of it into chunks of
arbitrary (including odd) length and arbitrary count, feeding the chunks in
order to `IPChecksum.Update` and then calling `Digest` yields exactly the
value `ipChecksum` returns for the full concatenation; the digest is
independent of how the input was chunked. -/
theorem digest_chunk_invariant (chunks : List (List Nat)) :
    (chunks.foldl IPChecksum.Update IPChecksum.init).Digest = ipChecksum chunks.flatten := by
  rw [foldl_Update_eq]
  rfl

/-- C3: `ipChecksum` computes the complement of the carry-folded sum of the
16-bit big-endian words (odd trailing byte zero-padded as high byte); on the
byte strings `""`, `"\x00"`, `"\x00\x00"`, `"\x00\x00\xff\xff"` it equals
`0xffff, 0xffff, 0xffff, 0x0000` respectively; and a pre-complement folded
sum of exactly `0xFFFF` yields the valid digest `0x0000`. -/
theorem ipChecksum_vectors :
    ipChecksum [] = 0xffff ∧
    ipChecksum [0x00] = 0xffff ∧
    ipChecksum [0x00, 0x00] = 0xffff ∧
    ipChecksum [0x00, 0x00, 0xff, 0xff] = 0x0000 ∧
    (∀ d : List Nat, ipChecksum d = 0xffff - foldCarry ((beWords d).sum)) ∧
    (∀ d : List Nat, foldCarry ((beWords d).sum) = 0xffff → ipChecksum d = 0) := by
  refine ⟨?_, ?_, ?_, ?_, ipChecksum_eq_words, ?_⟩
  · rw [ipChecksum_eval]; decide
  · rw [ipChecksum_eval]; decide
  · rw [ipChecksum_eval]; decide
  · rw [ipChecksum_eval]; decide
  · intro d h
    rw [ipChecksum_eq_words, h]

/-- Witness for C3: the folded pre-complement sum of `"\x00\x00\xff\xff"`
is exactly `0xFFFF` and its digest is the valid value `0x0000`. -/
theorem ipChecksum_vectors_witness :
    foldCarry ((beWords [0x00, 0x00, 0xff, 0xff]).sum) = 0xffff ∧
    ipChecksum [0x00, 0x00, 0xff, 0xff] = 0 :=
  ⟨by rw [foldCarry_eq_fuel _ _ le_rfl]; decide,
   ipChecksum_vectors.2.2.2.2.2 [0x00, 0x00, 0xff, 0xff]
     (by rw [foldCarry_eq_fuel _ _ le_rfl]; decide)⟩

/-- `beWords` distributes over an append at an even boundary. -/
theorem beWords_append_even :
    ∀ (d : List Nat), d.length % 2 = 0 → ∀ l, beWords (d ++ l) = beWords d ++ beWords l
  | [], _, l => rfl
  | [b], h, l => absurd h (by simp)
  | a :: b :: rest, h, l => by
    have hr : rest.length % 2 = 0 := by
      simp only [List.length_cons] at h
      omega
    show beWords (a :: b :: (rest ++ l)) = _
    simp [beWords, beWords_append_even rest hr l]

/-- C9: appending the two big-endian bytes of `ipChecksum d` to an
even-length sequence `d` yields a sequence whose `ipChecksum` is `0x0000`:
a region extended with its own computed checksum verifies to zero. -/
theorem ipChecksum_self_verify (d : List Nat) (h : d.length % 2 = 0) :
    ipChecksum (d ++ [ipChecksum d / 256, ipChecksum d % 256]) = 0 := by
  rw [ipChecksum_eq_words, beWords_append_even d h]
  rw [ipChecksum_eq_words]
  set S := (beWords d).sum with hS
  have hF := foldCarry_le S
  have hFs := foldCarry_le_self S
  have hFm := foldCarry_mod S
  set F := foldCarry S with hFdef
  have hsum : ((beWords d ++ beWords [(0xffff - F) / 256, (0xffff - F) % 256]).sum)
      = S + (0xffff - F) := by
    simp [beWords]
    omega
  rw [hsum]
  have hmult : foldCarry (S + (0xffff - F)) = 0xffff := by
    apply foldCarry_multiple
    · omega
    · omega
  rw [hmult]

/-- Witness for C9: the even-length region `"\xfc\x12\x3e\x00"` extended
with the two bytes of its own checksum digests to zero. -/
theorem ipChecksum_self_verify_witness :
    ipChecksum ([0xfc, 0x12, 0x3e, 0x00] ++
      [ipChecksum [0xfc, 0x12, 0x3e, 0x00] / 256,
       ipChecksum [0xfc, 0x12, 0x3e, 0x00] % 256]) = 0 :=
  ipChecksum_self_verify [0xfc, 0x12, 0x3e, 0x00] (by decide)

/-- An observation trace over the accumulator: `update` feeds a chunk,
`digest` records the digest value.  Modelled from the spec: `Digest()` reads
the state and produces the complemented folded sum; only `Update` changes
the state. -/
inductive CsumOp where
  | update (chunk : List Nat)
  | digest
deriving Repr, DecidableEq

/-- Run a sequence of accumulator operations, returning the final state and
the list of digest observations in order. -/
def runOps (s : IPChecksum) : List CsumOp → IPChecksum × List Nat
  | [] => (s, [])
  | CsumOp.update c :: rest => runOps (s.Update c) rest
  | CsumOp.digest :: rest =>
    let r := runOps s rest
    (r.1, s.Digest :: r.2)

/-- C10: `Digest` is observation-only — any number of consecutive `Digest`
calls with no intervening `Update` returns the same value each time and
leaves the accumulator state (running sum and odd-byte remainder)
unchanged. -/
theorem digest_observation_only (s : IPChecksum) (n : Nat) :
    runOps s (List.replicate n CsumOp.digest) = (s, List.replicate n s.Digest) := by
  induction n with
  | zero => rfl
  | succ n ih => simp [List.replicate_succ, runOps, ih]

/-! ### The program IR: Arg, Call, Prog

Modelled from the spec: the `Arg` node kinds of §3 (ConstArg, DataArg,
GroupArg, PointerArg, checksum fields, ResultArg use-references), with a
ResultArg use-reference held as the index of the defining call in program
order. -/

/-- Which span a checksum field covers.  Modelled from the spec: an
IPv4-header-style checksum covers the enclosing structure; a pseudo-header
style checksum covers a designated sibling field, and a reference outside
the enclosing structure is an invariant violation. -/
inductive CsumKind where
  | inet
  | pseudo (ref : Nat)
deriving Repr, DecidableEq

/-- Modelled from the spec: a concrete value node of the Program IR. -/
inductive Arg where
  | constArg (be : Bool) (size value : Nat)
  | dataArg (bytes : List Nat)
  | groupArg (args : List Arg)
  | ptrArg (addr : Nat) (pointee : Arg)
  | csumArg (size value : Nat) (kind : CsumKind)
  | resultRef (defIdx : Nat)
deriving Repr

/-- Scalar encoding in the declared byte order: `size` bytes of `value`,
little-endian by default, big-endian when `be` is set. -/
def encodeInt (be : Bool) (size value : Nat) : List Nat :=
  let le := (List.range size).map (fun i => value / 256 ^ i % 256)
  if be then le.reverse else le

mutual
/-- Modelled from the spec: the flattened binary image of an argument —
scalars in declared order and width, groups by concatenation, data verbatim,
pointers as an 8-byte address, checksum fields as a 16-bit-style big-endian
stored value, result references as a zero handle placeholder.
(`encodeStruct` in the source test suite.) -/
def encodeStruct : Arg → List Nat
  | .constArg be size value => encodeInt be size value
  | .dataArg bytes => bytes
  | .groupArg args => encodeList args
  | .ptrArg addr _ => encodeInt false 8 addr
  | .csumArg size value _ => encodeInt true size value
  | .resultRef _ => encodeInt false 8 0

def encodeList : List Arg → List Nat
  | [] => []
  | a :: rest => encodeStruct a ++ encodeList rest
end

mutual
/-- The binary image with every checksum field zeroed — "the checksum field
itself is zeroed before computing its own value". -/
def encodeZC : Arg → List Nat
  | .constArg be size value => encodeInt be size value
  | .dataArg bytes => bytes
  | .groupArg args => encodeZCList args
  | .ptrArg addr _ => encodeInt false 8 addr
  | .csumArg size _ _ => encodeInt true size 0
  | .resultRef _ => encodeInt false 8 0

def encodeZCList : List Arg → List Nat
  | [] => []
  | a :: rest => encodeZC a ++ encodeZCList rest
end

/-- Modelled from the spec: the IPv4-style field patch — the checksum field
value computed for a struct argument is the pair checksum of the struct's
byte image with the checksum field zeroed.  (`calcChecksumIPv4` in the
source returns the patched field; this models the computed value.) -/
def calcChecksumIPv4 (a : Arg) : Nat :=
  ipChecksum (encodeZC a)

/-- The golden checksummed region bytes of `TestChecksumEncode`. -/
def goldenRegion : List Nat :=
  [0x42, 0x00, 0x00, 0x43, 0x44, 0x00, 0x00, 0x00, 0x45, 0x00,
   0x00, 0x00, 0xba, 0xaa, 0xbb, 0xcc, 0xdd]

/-- Modelled from the spec: the Arg tree of the struct literal
`{0x42, 0x43, [0x44, 0x45], 0xa, 0xb, "aabbccdd"}` of the
`syz_test$csum_encode` program, laid out as in its golden encoding (the
padding byte is an explicit constant field and the packed pair of 4-bit
bitfields `0xa, 0xb` is one constant byte `0xba`). -/
def csumEncodeInner : Arg :=
  .groupArg [
    .constArg false 1 0x42,
    .constArg false 1 0x00,
    .constArg true 2 0x43,
    .groupArg [.constArg false 4 0x44, .constArg false 4 0x45],
    .constArg false 1 0xba,
    .dataArg [0xaa, 0xbb, 0xcc, 0xdd]]

/-- C4: the struct of the `csum_encode` program encodes to the golden
17-byte region, and the field-patch pass computes checksum value `0xe143`
over it — identically whether the checksummed span is embedded directly in
the checksummed struct or nested one level deeper inside a wrapping
structure (by group flattening, wrapping a span in a singleton structure
never changes a computed checksum). -/
theorem calcChecksumIPv4_golden :
    encodeStruct csumEncodeInner = goldenRegion ∧
    calcChecksumIPv4 (Arg.groupArg [Arg.csumArg 2 0 CsumKind.inet, csumEncodeInner]) = 0xe143 ∧
    calcChecksumIPv4
      (Arg.groupArg [Arg.csumArg 2 0 CsumKind.inet, Arg.groupArg [csumEncodeInner]]) = 0xe143 ∧
    (∀ a : Arg, calcChecksumIPv4 (Arg.groupArg [a]) = calcChecksumIPv4 a) := by
  refine ⟨by rfl, ?_, ?_, ?_⟩
  · rw [calcChecksumIPv4, ipChecksum_eval]; rfl
  · rw [calcChecksumIPv4, ipChecksum_eval]; rfl
  · intro a
    unfold calcChecksumIPv4
    have : encodeZC (Arg.groupArg [a]) = encodeZC a := by
      show encodeZCList [a] = encodeZC a
      show encodeZC a ++ encodeZCList [] = encodeZC a
      simp [encodeZCList]
    rw [this]

/-- Modelled from the spec: one invocation — call name, ordered argument
list, and whether its return value defines a Resource. -/
structure Call where
  name : Nat
  args : List Arg
  ret : Bool
deriving Repr

/-- Modelled from the spec: an ordered sequence of calls. -/
structure Prog where
  Calls : List Call
deriving Repr

mutual
/-- Modelled from the spec: the checksum field-patch walk over one
argument.  Checksum fields are patched relative to their enclosing
structure; a span reference that does not resolve inside the enclosing
structure is an invariant violation reported as an error. -/
def patchArg : Arg → Except String Arg
  | .groupArg gs =>
    match patchInGroup gs gs with
    | .ok gs2 => .ok (.groupArg gs2)
    | .error e => .error e
  | .ptrArg addr pointee =>
    match patchArg pointee with
    | .ok p2 => .ok (.ptrArg addr p2)
    | .error e => .error e
  | a => .ok a

/-- Patch a single member of a structure whose sibling list is `ctx`:
an inet checksum covers the whole enclosing structure (zeroed checksum
fields included); a pseudo checksum covers the sibling at its declared
index, and fails when that index resolves outside the structure. -/
def patchOne (ctx : List Arg) : Arg → Except String Arg
  | .csumArg size _ CsumKind.inet =>
    .ok (.csumArg size (ipChecksum (encodeZCList ctx)) CsumKind.inet)
  | .csumArg size _ (CsumKind.pseudo r) =>
    match ctx.get? r with
    | some t => .ok (.csumArg size (ipChecksum (encodeZC t)) (CsumKind.pseudo r))
    | none => .error "checksum span resolves outside the enclosing struct"
  | a => patchArg a

def patchInGroup (ctx : List Arg) : List Arg → Except String (List Arg)
  | [] => .ok []
  | a :: rest =>
    match patchOne ctx a, patchInGroup ctx rest with
    | .ok b, .ok rest2 => .ok (b :: rest2)
    | .error e, _ => .error e
    | .ok _, .error e => .error e
end

/-- Modelled from the spec: the per-call checksum field-patch pass
(`calcChecksumsCall` in the source): locate every checksum field among the
call's arguments, resolve its span, and write the computed value back. -/
def calcChecksumsCall (c : Call) : Except String Call :=
  match patchInGroup c.args c.args with
  | .ok args2 => .ok ⟨c.name, args2, c.ret⟩
  | .error e => .error e

/-! ### Unfolding equations for the patch walk -/

theorem patchArg_const (be : Bool) (s v : Nat) :
    patchArg (.constArg be s v) = .ok (.constArg be s v) := by simp [patchArg]

theorem patchArg_data (bs : List Nat) :
    patchArg (.dataArg bs) = .ok (.dataArg bs) := by simp [patchArg]

theorem patchArg_csum (s v : Nat) (k : CsumKind) :
    patchArg (.csumArg s v k) = .ok (.csumArg s v k) := by simp [patchArg]

theorem patchArg_res (d : Nat) :
    patchArg (.resultRef d) = .ok (.resultRef d) := by simp [patchArg]

theorem patchArg_group (gs : List Arg) : patchArg (.groupArg gs) =
    (match patchInGroup gs gs with
     | .ok gs2 => .ok (.groupArg gs2)
     | .error e => .error e) := by simp [patchArg]

theorem patchArg_ptr (ad : Nat) (pe : Arg) : patchArg (.ptrArg ad pe) =
    (match patchArg pe with
     | .ok p2 => .ok (.ptrArg ad p2)
     | .error e => .error e) := by simp [patchArg]

theorem patchOne_inet (ctx : List Arg) (size v : Nat) :
    patchOne ctx (.csumArg size v CsumKind.inet) =
    .ok (.csumArg size (ipChecksum (encodeZCList ctx)) CsumKind.inet) := by simp [patchOne]

theorem patchOne_pseudo (ctx : List Arg) (size v r : Nat) :
    patchOne ctx (.csumArg size v (CsumKind.pseudo r)) =
    (match ctx.get? r with
     | some t => .ok (.csumArg size (ipChecksum (encodeZC t)) (CsumKind.pseudo r))
     | none => .error "checksum span resolves outside the enclosing struct") := by
  simp [patchOne]

theorem patchOne_const (ctx : List Arg) (be : Bool) (s v : Nat) :
    patchOne ctx (.constArg be s v) = patchArg (.constArg be s v) := by simp [patchOne]

theorem patchOne_data (ctx : List Arg) (bs : List Nat) :
    patchOne ctx (.dataArg bs) = patchArg (.dataArg bs) := by simp [patchOne]

theorem patchOne_group (ctx : List Arg) (gs : List Arg) :
    patchOne ctx (.groupArg gs) = patchArg (.groupArg gs) := by simp [patchOne]

theorem patchOne_ptr (ctx : List Arg) (ad : Nat) (pe : Arg) :
    patchOne ctx (.ptrArg ad pe) = patchArg (.ptrArg ad pe) := by simp [patchOne]

theorem patchOne_res (ctx : List Arg) (d : Nat) :
    patchOne ctx (.resultRef d) = patchArg (.resultRef d) := by simp [patchOne]

theorem patchInGroup_nil (ctx : List Arg) : patchInGroup ctx [] = .ok [] := by
  simp [patchInGroup]

theorem patchInGroup_cons (ctx : List Arg) (a : Arg) (rest : List Arg) :
    patchInGroup ctx (a :: rest) =
    (match patchOne ctx a, patchInGroup ctx rest with
     | .ok b, .ok rest2 => .ok (b :: rest2)
     | .error e, _ => .error e
     | .ok _, .error e => .error e) := by simp [patchInGroup]

/-! ### The patch walk never changes the zero-checksum image -/

mutual

theorem patchArg_zc : ∀ (a b : Arg), patchArg a = Except.ok b → encodeZC b = encodeZC a
  | .constArg be s v, b, h => by
    rw [patchArg_const] at h
    simp only [Except.ok.injEq] at h
    subst h
    rfl
  | .dataArg bs, b, h => by
    rw [patchArg_data] at h
    simp only [Except.ok.injEq] at h
    subst h
    rfl
  | .csumArg s v k, b, h => by
    rw [patchArg_csum] at h
    simp only [Except.ok.injEq] at h
    subst h
    rfl
  | .resultRef d, b, h => by
    rw [patchArg_res] at h
    simp only [Except.ok.injEq] at h
    subst h
    rfl
  | .groupArg gs, b, h => by
    rw [patchArg_group] at h
    split at h
    · rename_i gs2 heq
      simp only [Except.ok.injEq] at h
      subst h
      show encodeZCList gs2 = encodeZCList gs
      exact (patchInGroup_zc gs gs gs2 heq).2
    · cases h
  | .ptrArg ad pe, b, h => by
    rw [patchArg_ptr] at h
    split at h
    · rename_i p2 heq
      simp only [Except.ok.injEq] at h
      subst h
      rfl
    · cases h

theorem patchOne_zc : ∀ (ctx : List Arg) (a b : Arg),
    patchOne ctx a = Except.ok b → encodeZC b = encodeZC a
  | ctx, .constArg be s v, b, h => patchArg_zc _ b (by rwa [patchOne_const] at h)
  | ctx, .dataArg bs, b, h => patchArg_zc _ b (by rwa [patchOne_data] at h)
  | ctx, .groupArg gs, b, h => patchArg_zc _ b (by rwa [patchOne_group] at h)
  | ctx, .ptrArg ad pe, b, h => patchArg_zc _ b (by rwa [patchOne_ptr] at h)
  | ctx, .resultRef d, b, h => patchArg_zc _ b (by rwa [patchOne_res] at h)
  | ctx, .csumArg s v CsumKind.inet, b, h => by
    rw [patchOne_inet] at h
    simp only [Except.ok.injEq] at h
    subst h
    rfl
  | ctx, .csumArg s v (CsumKind.pseudo r), b, h => by
    rw [patchOne_pseudo] at h
    split at h
    · simp only [Except.ok.injEq] at h
      subst h
      rfl
    · cases h

theorem patchInGroup_zc : ∀ (ctx xs ys : List Arg),
    patchInGroup ctx xs = Except.ok ys →
    (∀ r, (ys.get? r).map encodeZC = (xs.get? r).map encodeZC) ∧
      encodeZCList ys = encodeZCList xs
  | ctx, [], ys, h => by
    rw [patchInGroup_nil] at h
    simp only [Except.ok.injEq] at h
    subst h
    exact ⟨fun r => rfl, rfl⟩
  | ctx, a :: rest, ys, h => by
    rw [patchInGroup_cons] at h
    split at h
    · rename_i b rest2 hb hrest
      simp only [Except.ok.injEq] at h
      subst h
      have hone := patchOne_zc ctx a b hb
      have ih := patchInGroup_zc ctx rest rest2 hrest
      refine ⟨?_, ?_⟩
      · intro r
        cases r with
        | zero => simp [List.get?, hone]
        | succ r => simpa [List.get?] using ih.1 r
      · show encodeZC b ++ encodeZCList rest2 = encodeZC a ++ encodeZCList rest
        rw [hone, ih.2]
    · cases h
    · cases h

end

/-! ### Idempotence of the patch walk -/

mutual

theorem patchArg_idem : ∀ (a b : Arg), patchArg a = Except.ok b → patchArg b = Except.ok b
  | .constArg be s v, b, h => by
    rw [patchArg_const] at h
    simp only [Except.ok.injEq] at h
    subst h
    exact patchArg_const be s v
  | .dataArg bs, b, h => by
    rw [patchArg_data] at h
    simp only [Except.ok.injEq] at h
    subst h
    exact patchArg_data bs
  | .csumArg s v k, b, h => by
    rw [patchArg_csum] at h
    simp only [Except.ok.injEq] at h
    subst h
    exact patchArg_csum s v k
  | .resultRef d, b, h => by
    rw [patchArg_res] at h
    simp only [Except.ok.injEq] at h
    subst h
    exact patchArg_res d
  | .groupArg gs, b, h => by
    rw [patchArg_group] at h
    split at h
    · rename_i gs2 heq
      simp only [Except.ok.injEq] at h
      subst h
      have hzc := patchInGroup_zc gs gs gs2 heq
      have hrec : patchInGroup gs2 gs2 = Except.ok gs2 :=
        patchInGroup_idem gs gs gs2 heq gs2 hzc.1 hzc.2
      rw [patchArg_group, hrec]
    · cases h
  | .ptrArg ad pe, b, h => by
    rw [patchArg_ptr] at h
    split at h
    · rename_i p2 heq
      simp only [Except.ok.injEq] at h
      subst h
      rw [patchArg_ptr, patchArg_idem pe p2 heq]
    · cases h

theorem patchOne_idem : ∀ (ctx : List Arg) (a b : Arg), patchOne ctx a = Except.ok b →
    ∀ ctx2 : List Arg, (∀ r, (ctx2.get? r).map encodeZC = (ctx.get? r).map encodeZC) →
      encodeZCList ctx2 = encodeZCList ctx → patchOne ctx2 b = Except.ok b
  | ctx, .constArg be s v, b, h, ctx2, _, _ => by
    rw [patchOne_const] at h
    rw [patchArg_const] at h
    simp only [Except.ok.injEq] at h
    subst h
    rw [patchOne_const, patchArg_const]
  | ctx, .dataArg bs, b, h, ctx2, _, _ => by
    rw [patchOne_data, patchArg_data] at h
    simp only [Except.ok.injEq] at h
    subst h
    rw [patchOne_data, patchArg_data]
  | ctx, .resultRef d, b, h, ctx2, _, _ => by
    rw [patchOne_res, patchArg_res] at h
    simp only [Except.ok.injEq] at h
    subst h
    rw [patchOne_res, patchArg_res]
  | ctx, .groupArg gs, b, h, ctx2, _, _ => by
    rw [patchOne_group] at h
    have hb := patchArg_idem (.groupArg gs) b h
    have hshape : ∃ gs2, b = .groupArg gs2 := by
      rw [patchArg_group] at h
      split at h
      · rename_i gs2 heq
        simp only [Except.ok.injEq] at h
        exact ⟨gs2, h.symm⟩
      · cases h
    obtain ⟨gs2, rfl⟩ := hshape
    rw [patchOne_group]
    exact hb
  | ctx, .ptrArg ad pe, b, h, ctx2, _, _ => by
    rw [patchOne_ptr] at h
    have hb := patchArg_idem (.ptrArg ad pe) b h
    have hshape : ∃ p2, b = .ptrArg ad p2 := by
      rw [patchArg_ptr] at h
      split at h
      · rename_i p2 heq
        simp only [Except.ok.injEq] at h
        exact ⟨p2, h.symm⟩
      · cases h
    obtain ⟨p2, rfl⟩ := hshape
    rw [patchOne_ptr]
    exact hb
  | ctx, .csumArg s v CsumKind.inet, b, h, ctx2, _, hsum => by
    rw [patchOne_inet] at h
    simp only [Except.ok.injEq] at h
    subst h
    rw [patchOne_inet, hsum]
  | ctx, .csumArg s v (CsumKind.pseudo r), b, h, ctx2, hpt, _ => by
    rw [patchOne_pseudo] at h
    split at h
    · rename_i t heq
      simp only [Except.ok.injEq] at h
      subst h
      have hr := hpt r
      rw [heq] at hr
      rw [patchOne_pseudo]
      cases hget2 : ctx2.get? r with
      | none => rw [hget2] at hr; simp at hr
      | some t2 =>
        rw [hget2] at hr
        simp only [Option.map_some', Option.some.injEq] at hr
        simp only [hr]
    · cases h

theorem patchInGroup_idem : ∀ (ctx xs ys : List Arg), patchInGroup ctx xs = Except.ok ys →
    ∀ ctx2 : List Arg, (∀ r, (ctx2.get? r).map encodeZC = (ctx.get? r).map encodeZC) →
      encodeZCList ctx2 = encodeZCList ctx → patchInGroup ctx2 ys = Except.ok ys
  | ctx, [], ys, h, ctx2, _, _ => by
    rw [patchInGroup_nil] at h
    simp only [Except.ok.injEq] at h
    subst h
    exact patchInGroup_nil ctx2
  | ctx, a :: rest, ys, h, ctx2, hpt, hsum => by
    rw [patchInGroup_cons] at h
    split at h
    · rename_i b rest2 hb hrest
      simp only [Except.ok.injEq] at h
      subst h
      have h1 := patchOne_idem ctx a b hb ctx2 hpt hsum
      have h2 := patchInGroup_idem ctx rest rest2 hrest ctx2 hpt hsum
      rw [patchInGroup_cons, h1, h2]
    · cases h
    · cases h

end

/-- C6: running the checksum field-patch pass twice in succession on the
same Call, with no structural change in between, is idempotent — the second
run succeeds and returns the very same patched call, hence identical
checksum field values and identical byte output both times. -/
theorem calcChecksumsCall_idempotent (c c2 : Call) (h : calcChecksumsCall c = .ok c2) :
    calcChecksumsCall c2 = .ok c2 := by
  unfold calcChecksumsCall at h ⊢
  split at h
  · rename_i args2 heq
    simp only [Except.ok.injEq] at h
    subst h
    have hzc := patchInGroup_zc c.args c.args args2 heq
    have hrec : patchInGroup args2 args2 = Except.ok args2 :=
      patchInGroup_idem c.args c.args args2 heq args2 hzc.1 hzc.2
    simp only [hrec]
  · cases h

/-- Witness for C6: patching a call holding one inet checksum field over an
all-zero two-byte image yields value `0xffff`, and a second run of the pass
returns the same patched call unchanged. -/
theorem calcChecksumsCall_idempotent_witness :
    calcChecksumsCall ⟨0, [Arg.csumArg 2 0xffff CsumKind.inet], false⟩ =
      .ok ⟨0, [Arg.csumArg 2 0xffff CsumKind.inet], false⟩ :=
  calcChecksumsCall_idempotent ⟨0, [Arg.csumArg 2 0 CsumKind.inet], false⟩
    ⟨0, [Arg.csumArg 2 0xffff CsumKind.inet], false⟩ (by
      have hv : ipChecksum (encodeZCList [Arg.csumArg 2 0 CsumKind.inet]) = 0xffff := by
        have hz : encodeZCList [Arg.csumArg 2 0 CsumKind.inet] = [0, 0] := rfl
        rw [hz, ipChecksum_eval]
        rfl
      unfold calcChecksumsCall
      rw [patchInGroup_cons, patchOne_inet, patchInGroup_nil, hv])

/-! ### Program well-formedness: no dangling result references

Modelled from the spec (§3): every ResultArg use-reference refers to a
ResultArg definition earlier in program order within the same Program. -/

/-- Does call index `d` of program `p` define a Resource (produce a return
value)? -/
def retAt (p : List Call) (d : Nat) : Bool :=
  ((p.get? d).map Call.ret).getD false

mutual
/-- Every result reference inside the argument resolves to a
resource-producing call strictly earlier than position `i` of program
`p`. -/
def argOk (p : List Call) (i : Nat) : Arg → Bool
  | .groupArg gs => argsOk p i gs
  | .ptrArg _ pe => argOk p i pe
  | .resultRef d => decide (d < i) && retAt p d
  | _ => true

def argsOk (p : List Call) (i : Nat) : List Arg → Bool
  | [] => true
  | a :: rest => argOk p i a && argsOk p i rest
end

/-- Check the calls of `l`, which sit at positions `i, i+1, ...` of the
full program `p`. -/
def callsOk (p : List Call) : Nat → List Call → Bool
  | _, [] => true
  | i, c :: rest => argsOk p i c.args && callsOk p (i + 1) rest

/-- The no-dangling-reference invariant of a Program. -/
def wfProg (pr : Prog) : Bool :=
  callsOk pr.Calls 0 pr.Calls

/-! ### The type descriptor graph

Modelled from the spec (§3, §4.1): an immutable table of argument type
descriptors and call descriptors, validated at construction; checksum
fields declare which sibling span they cover. -/

/-- Modelled from the spec: argument type descriptors (the kinds the
claims exercise: scalar with byte order/width/range, buffer, pointer,
struct, checksum field, resource). -/
inductive TypeD where
  | intT (be : Bool) (size max : Nat)
  | bufT
  | ptrT (elem : TypeD)
  | structT (fields : List TypeD)
  | csumT (size : Nat) (kind : CsumKind)
  | resT
deriving Repr

/-- Modelled from the spec: a call descriptor — name, argument types, and
whether the call produces a Resource. -/
structure CallD where
  name : Nat
  args : List TypeD
  ret : Bool
deriving Repr

mutual
/-- Construction-time validity of a type descriptor: every checksum span
reference resolves inside the structure that declares it. -/
def wfT : TypeD → Bool
  | .ptrT e => wfT e
  | .structT fs => wfFields fs.length fs
  | _ => true

def wfFields (n : Nat) : List TypeD → Bool
  | [] => true
  | .csumT _ (CsumKind.pseudo r) :: rest => decide (r < n) && wfFields n rest
  | f :: rest => wfT f && wfFields n rest
end

/-- Modelled from the spec: a small validated descriptor table — a
resource-producing open-like call, two resource consumers (one with an
inet-checksummed struct behind a pointer), and a call with a
pseudo-checksummed struct whose span reference names a valid sibling. -/
def table : List CallD :=
  [⟨0, [.intT false 4 0xffffffff], true⟩,
   ⟨1, [.resT,
        .ptrT (.structT [.csumT 2 CsumKind.inet, .intT true 2 0xffff, .bufT])], false⟩,
   ⟨2, [.resT, .bufT], false⟩,
   ⟨3, [.ptrT (.structT [.csumT 2 (CsumKind.pseudo 2), .intT false 4 10, .bufT]),
        .intT false 1 1], false⟩]

/-! ### The generator

Modelled from the spec (§4.4): randomized top-down synthesis against the
descriptor table.  Integers are drawn from their declared domain; pointers
get a synthesized pointee; checksum fields are left as zero placeholders;
resource arguments reuse an existing compatible resource defined earlier in
the program when one exists and otherwise fall back to the recognized
invalid-handle constant. -/

/-- A deterministic linear-congruential random source. -/
structure Rnd where
  seed : Nat
deriving Repr

/-- Advance the random source, returning a fresh value. -/
def Rnd.next (r : Rnd) : Nat × Rnd :=
  let s := (r.seed * 1103515245 + 12345) % 2147483648
  (s, ⟨s⟩)

/-- The recognized invalid-handle constant used when no compatible
resource exists. -/
def invalidHandle : Arg :=
  .constArg false 8 0xffffffffffffffff

mutual
/-- Generate one argument of the given descriptor type.  `producers` lists
the indices of resource-producing calls available earlier in the program
being built. -/
def genArg (producers : List Nat) (r : Rnd) : TypeD → Arg × Rnd
  | .intT be size mx => (.constArg be size (r.next.1 % (mx + 1)), r.next.2)
  | .bufT =>
    (.dataArg ((List.range (r.next.1 % 4)).map (fun i => (r.next.1 + i) % 256)), r.next.2)
  | .ptrT e =>
    (.ptrArg (r.next.1 % 0x1000000) (genArg producers r.next.2 e).1,
     (genArg producers r.next.2 e).2)
  | .structT fs => (.groupArg (genArgs producers r fs).1, (genArgs producers r fs).2)
  | .csumT size kind => (.csumArg size 0 kind, r)
  | .resT =>
    match producers with
    | [] => (invalidHandle, r)
    | p :: ps =>
      (.resultRef ((p :: ps).get
        ⟨r.next.1 % (p :: ps).length, Nat.mod_lt _ (Nat.succ_pos _)⟩), r.next.2)

def genArgs (producers : List Nat) (r : Rnd) : List TypeD → List Arg × Rnd
  | [] => ([], r)
  | t :: ts =>
    let (a, r1) := genArg producers r t
    let (rest, r2) := genArgs producers r1 ts
    (a :: rest, r2)
end

/-- Generate one call: pick a descriptor from the table and synthesize its
arguments. -/
def genCall (producers : List Nat) (r : Rnd) : Call × Rnd :=
  let cd := (table.get? (r.next.1 % table.length)).getD ⟨0, [], false⟩
  let res := genArgs producers r.next.2 cd.args
  (⟨cd.name, res.1, cd.ret⟩, res.2)

/-- Generate `n` calls for positions `i, i+1, ...`, threading the list of
resource-producing call indices. -/
def genCalls : Nat → Nat → List Nat → Rnd → List Call × Rnd
  | 0, _, _, r => ([], r)
  | n + 1, i, producers, r =>
    let cr := genCall producers r
    let producers2 := if cr.1.ret then producers ++ [i] else producers
    let rest := genCalls n (i + 1) producers2 cr.2
    (cr.1 :: rest.1, rest.2)

/-- Modelled from the spec: `Generate(rs, size, ...)` — randomized
synthesis of a new program of `size` calls. -/
def Generate (r : Rnd) (size : Nat) : Prog × Rnd :=
  (⟨(genCalls size 0 [] r).1⟩, (genCalls size 0 [] r).2)

/-! ### The generator never creates dangling references -/

theorem retAt_append (pre rest : List Call) (d : Nat) (h : d < pre.length) :
    retAt (pre ++ rest) d = retAt pre d := by
  unfold retAt
  rw [List.get?_append h]

theorem retAt_concat (pre : List Call) (c : Call) :
    retAt (pre ++ [c]) pre.length = c.ret := by
  unfold retAt
  rw [List.get?_concat_length]
  rfl

mutual

theorem genArg_ok : ∀ (t : TypeD) (producers : List Nat) (r : Rnd) (p : List Call) (i : Nat),
    (∀ d ∈ producers, d < i ∧ retAt p d = true) →
    argOk p i (genArg producers r t).1 = true
  | .intT be size mx, producers, r, p, i, hp => by simp [genArg, argOk]
  | .bufT, producers, r, p, i, hp => by simp [genArg, argOk]
  | .csumT size kind, producers, r, p, i, hp => by simp [genArg, argOk]
  | .ptrT e, producers, r, p, i, hp => by
    have ih := genArg_ok e producers r.next.2 p i hp
    simp only [genArg, argOk]
    exact ih
  | .structT fs, producers, r, p, i, hp => by
    have ih := genArgs_ok fs producers r p i hp
    simp only [genArg, argOk]
    exact ih
  | .resT, producers, r, p, i, hp => by
    match producers with
    | [] => simp [genArg, argOk, invalidHandle]
    | q :: qs =>
      have hmem : (q :: qs).get
          ⟨r.next.1 % (q :: qs).length, Nat.mod_lt _ (Nat.succ_pos _)⟩ ∈ q :: qs :=
        List.get_mem _ _ _
      obtain ⟨h1, h2⟩ := hp _ hmem
      simp only [List.get_eq_getElem, Rnd.next, List.length_cons] at h1 h2
      simp [genArg, argOk, Rnd.next, h1, h2]

theorem genArgs_ok : ∀ (ts : List TypeD) (producers : List Nat) (r : Rnd) (p : List Call) (i : Nat),
    (∀ d ∈ producers, d < i ∧ retAt p d = true) →
    argsOk p i (genArgs producers r ts).1 = true
  | [], producers, r, p, i, hp => by simp [genArgs, argsOk]
  | t :: ts, producers, r, p, i, hp => by
    have ih1 := genArg_ok t producers r p i hp
    have ih2 := genArgs_ok ts producers (genArg producers r t).2 p i hp
    simp only [genArgs, argsOk]
    simp [ih1, ih2]

end

theorem genCall_ok (producers : List Nat) (r : Rnd) (p : List Call) (i : Nat)
    (hp : ∀ d ∈ producers, d < i ∧ retAt p d = true) :
    argsOk p i (genCall producers r).1.args = true := by
  simp only [genCall]
  exact genArgs_ok _ producers _ p i hp

theorem genCalls_ok : ∀ (n i : Nat) (producers : List Nat) (r : Rnd) (pre : List Call),
    pre.length = i →
    (∀ d ∈ producers, d < i ∧ retAt pre d = true) →
    callsOk (pre ++ (genCalls n i producers r).1) i (genCalls n i producers r).1 = true
  | 0, i, producers, r, pre, hlen, hp => by simp [genCalls, callsOk]
  | n + 1, i, producers, r, pre, hlen, hp => by
    simp only [genCalls]
    set c := (genCall producers r).1 with hc
    set producers2 := if c.ret then producers ++ [i] else producers with hprod
    set rest := (genCalls n (i + 1) producers2 (genCall producers r).2).1 with hrest
    have hfix : pre ++ c :: rest = (pre ++ [c]) ++ rest := by simp
    have hp2 : ∀ d ∈ producers, d < i ∧ retAt (pre ++ c :: rest) d = true := by
      intro d hd
      obtain ⟨h1, h2⟩ := hp d hd
      exact ⟨h1, by rw [retAt_append _ _ _ (by omega)]; exact h2⟩
    have hargs : argsOk (pre ++ c :: rest) i c.args = true :=
      genCall_ok producers r _ i hp2
    have hp3 : ∀ d ∈ producers2, d < i + 1 ∧ retAt (pre ++ [c]) d = true := by
      intro d hd
      by_cases hcr : c.ret
      · rw [hprod, if_pos hcr] at hd
        rcases List.mem_append.mp hd with hold | hnew
        · obtain ⟨h1, h2⟩ := hp d hold
          exact ⟨by omega, by rw [retAt_append _ _ _ (by omega)]; exact h2⟩
        · have : d = i := by simpa using hnew
          subst this
          refine ⟨by omega, ?_⟩
          rw [← hlen, retAt_concat]
          exact hcr
      · rw [hprod, if_neg hcr] at hd
        obtain ⟨h1, h2⟩ := hp d hd
        exact ⟨by omega, by rw [retAt_append _ _ _ (by omega)]; exact h2⟩
    have ih := genCalls_ok n (i + 1) producers2 (genCall producers r).2 (pre ++ [c])
      (by simp [hlen]) hp3
    show callsOk (pre ++ c :: rest) i (c :: rest) = true
    simp only [callsOk, Bool.and_eq_true]
    constructor
    · exact hargs
    · rw [hfix]
      exact ih

/-- A generated program satisfies the no-dangling-reference invariant. -/
theorem wfProg_Generate (r : Rnd) (size : Nat) :
    wfProg (Generate r size).1 = true := by
  unfold wfProg Generate
  simpa using genCalls_ok size 0 [] r [] rfl (by simp)

/-! ### The mutator

Modelled from the spec (§4.5): one randomly chosen edit per mutation —
insert a freshly generated call at a valid position, remove a call
(repointing every use of its result to a freshly synthesized independent
value), mutate scalar/buffer argument values in place, splice freshly
generated calls in, or swap two adjacent independent calls.  Every edit
renumbers result references so they keep resolving to their definitions. -/

mutual
/-- Replace every result reference `d` in an argument by `f d`. -/
def mapRef (f : Nat → Arg) : Arg → Arg
  | .groupArg gs => .groupArg (mapRefList f gs)
  | .ptrArg ad pe => .ptrArg ad (mapRef f pe)
  | .resultRef d => f d
  | a => a

def mapRefList (f : Nat → Arg) : List Arg → List Arg
  | [] => []
  | a :: rest => mapRef f a :: mapRefList f rest
end

/-- Apply a reference transformation to every argument of a call. -/
def mapCallRefs (f : Nat → Arg) (c : Call) : Call :=
  ⟨c.name, mapRefList f c.args, c.ret⟩

mutual
/-- Does the argument hold a use-reference to call index `k`? -/
def hasRefTo (k : Nat) : Arg → Bool
  | .groupArg gs => hasRefToList k gs
  | .ptrArg _ pe => hasRefTo k pe
  | .resultRef d => decide (d = k)
  | _ => false

def hasRefToList (k : Nat) : List Arg → Bool
  | [] => false
  | a :: rest => hasRefTo k a || hasRefToList k rest
end

def hasRefToCall (k : Nat) (c : Call) : Bool :=
  hasRefToList k c.args

mutual
/-- In-place value mutation of scalar and buffer arguments; structure,
checksum placeholders and result references are untouched. -/
def mutVal (n : Nat) : Arg → Arg
  | .constArg be s v => .constArg be s ((v + n) % 256 ^ s)
  | .dataArg bs => .dataArg (bs.map (fun b => (b + n) % 256))
  | .groupArg gs => .groupArg (mutValList n gs)
  | .ptrArg ad pe => .ptrArg ad (mutVal n pe)
  | a => a

def mutValList (n : Nat) : List Arg → List Arg
  | [] => []
  | a :: rest => mutVal n a :: mutValList n rest
end

/-- Renumbering for an insertion at position `k`: definitions at or after
`k` move one slot later. -/
def shiftRef (k d : Nat) : Arg :=
  .resultRef (if k ≤ d then d + 1 else d)

/-- Renumbering for a removal of call `k`: uses of call `k` are replaced by
the freshly synthesized invalid-handle value; later definitions move one
slot earlier. -/
def removeRef (k d : Nat) : Arg :=
  if d = k then invalidHandle
  else if k < d then .resultRef (d - 1)
  else .resultRef d

/-- Renumbering for a swap of adjacent calls `k` and `k+1`. -/
def swapRef (k d : Nat) : Arg :=
  .resultRef (if d = k then k + 1 else if d = k + 1 then k else d)

/-- The resource-producing call indices strictly before position `k`. -/
def producersUpTo (p : List Call) (k : Nat) : List Nat :=
  (List.range k).filter (fun d => retAt p d)

/-- Insert call `c` at position `k`, shifting the references of every later
call. -/
def insertCall (p : List Call) (k : Nat) (c : Call) : List Call :=
  p.take k ++ c :: (p.drop k).map (mapCallRefs (shiftRef k))

/-- Remove the call at position `k`, repointing every use of its result and
renumbering later references. -/
def removeCall (p : List Call) (k : Nat) : List Call :=
  p.take k ++ (p.drop (k + 1)).map (mapCallRefs (removeRef k))

/-- Mutate the argument values of the call at position `k` in place. -/
def mutateArgEdit (p : List Call) (k n : Nat) : List Call :=
  match p.get? k with
  | some c => p.take k ++ ⟨c.name, mutValList n c.args, c.ret⟩ :: p.drop (k + 1)
  | none => p

/-- Swap the adjacent calls at positions `k` and `k+1` when the later one
does not consume the earlier one's result; otherwise leave the program
unchanged. -/
def swapAdj (p : List Call) (k : Nat) : List Call :=
  match p.get? k, p.get? (k + 1) with
  | some a, some b =>
    if hasRefToCall k b then p
    else p.take k ++ b :: a :: (p.drop (k + 2)).map (mapCallRefs (swapRef k))
  | _, _ => p

/-- Splice `m` freshly generated calls in starting at position `k`, each
generated against the resources available at its insertion point. -/
def spliceEdit : List Call → Nat → Nat → Rnd → List Call × Rnd
  | p, _, 0, r => (p, r)
  | p, k, m + 1, r =>
    let pos := min k p.length
    let cg := genCall (producersUpTo p pos) r
    spliceEdit (insertCall p pos cg.1) (k + 1) m cg.2

/-- Modelled from the spec: `Mutate` — apply one randomly chosen edit. -/
def Mutate (p : Prog) (r : Rnd) : Prog × Rnd :=
  let l := p.Calls
  let r1 := r.next.2
  match r.next.1 % 5 with
  | 0 =>
    let pos := r1.next.1 % (l.length + 1)
    let cg := genCall (producersUpTo l pos) r1.next.2
    (⟨insertCall l pos cg.1⟩, cg.2)
  | 1 => (⟨removeCall l (r1.next.1 % (l.length + 1))⟩, r1.next.2)
  | 2 => (⟨mutateArgEdit l (r1.next.1 % (l.length + 1)) r1.next.2.next.1⟩, r1.next.2.next.2)
  | 3 =>
    let res := spliceEdit l (r1.next.1 % (l.length + 1)) 2 r1.next.2
    (⟨res.1⟩, res.2)
  | _ => (⟨swapAdj l (r1.next.1 % (l.length + 1))⟩, r1.next.2)

/-! ### Reference-transfer lemmas -/

theorem callsOk_append (p : List Call) :
    ∀ (l1 l2 : List Call) (i : Nat),
      callsOk p i (l1 ++ l2) = (callsOk p i l1 && callsOk p (i + l1.length) l2)
  | [], l2, i => by simp [callsOk]
  | c :: l1, l2, i => by
    show (argsOk p i c.args && callsOk p (i + 1) (l1 ++ l2)) =
      ((argsOk p i c.args && callsOk p (i + 1) l1) && callsOk p (i + (l1.length + 1)) l2)
    rw [callsOk_append p l1 l2 (i + 1), Bool.and_assoc]
    have h : i + 1 + l1.length = i + (l1.length + 1) := by omega
    rw [h]

mutual

theorem argOk_transfer : ∀ (a : Arg) (p p2 : List Call) (i i2 : Nat),
    argOk p i a = true →
    (∀ d, d < i → retAt p d = true → hasRefTo d a = true → d < i2 ∧ retAt p2 d = true) →
    argOk p2 i2 a = true
  | .constArg be s v, p, p2, i, i2, h, hc => by simp [argOk]
  | .dataArg bs, p, p2, i, i2, h, hc => by simp [argOk]
  | .csumArg s v k, p, p2, i, i2, h, hc => by simp [argOk]
  | .resultRef d, p, p2, i, i2, h, hc => by
    simp only [argOk, Bool.and_eq_true, decide_eq_true_eq] at h
    obtain ⟨h1, h2⟩ := h
    obtain ⟨h3, h4⟩ := hc d h1 h2 (by simp [hasRefTo])
    simp [argOk, h3, h4]
  | .groupArg gs, p, p2, i, i2, h, hc => by
    simp only [argOk] at h ⊢
    exact argsOk_transfer gs p p2 i i2 h (fun d hd hr href => hc d hd hr (by simpa [hasRefTo] using href))
  | .ptrArg ad pe, p, p2, i, i2, h, hc => by
    simp only [argOk] at h ⊢
    exact argOk_transfer pe p p2 i i2 h (fun d hd hr href => hc d hd hr (by simpa [hasRefTo] using href))

theorem argsOk_transfer : ∀ (l : List Arg) (p p2 : List Call) (i i2 : Nat),
    argsOk p i l = true →
    (∀ d, d < i → retAt p d = true → hasRefToList d l = true → d < i2 ∧ retAt p2 d = true) →
    argsOk p2 i2 l = true
  | [], p, p2, i, i2, h, hc => by simp [argsOk]
  | a :: rest, p, p2, i, i2, h, hc => by
    simp only [argsOk, Bool.and_eq_true] at h ⊢
    refine ⟨?_, ?_⟩
    · exact argOk_transfer a p p2 i i2 h.1
        (fun d hd hr href => hc d hd hr (by simp [hasRefToList, href]))
    · exact argsOk_transfer rest p p2 i i2 h.2
        (fun d hd hr href => hc d hd hr (by simp [hasRefToList, href]))

end

mutual

theorem argOk_mapRef : ∀ (a : Arg) (f : Nat → Arg) (p p2 : List Call) (i i2 : Nat),
    argOk p i a = true →
    (∀ d, d < i → retAt p d = true → argOk p2 i2 (f d) = true) →
    argOk p2 i2 (mapRef f a) = true
  | .constArg be s v, f, p, p2, i, i2, h, hc => by simp [argOk, mapRef]
  | .dataArg bs, f, p, p2, i, i2, h, hc => by simp [argOk, mapRef]
  | .csumArg s v k, f, p, p2, i, i2, h, hc => by simp [argOk, mapRef]
  | .resultRef d, f, p, p2, i, i2, h, hc => by
    simp only [argOk, Bool.and_eq_true, decide_eq_true_eq] at h
    simpa [mapRef] using hc d h.1 h.2
  | .groupArg gs, f, p, p2, i, i2, h, hc => by
    simp only [argOk, mapRef] at h ⊢
    exact argsOk_mapRef gs f p p2 i i2 h hc
  | .ptrArg ad pe, f, p, p2, i, i2, h, hc => by
    simp only [argOk, mapRef] at h ⊢
    exact argOk_mapRef pe f p p2 i i2 h hc

theorem argsOk_mapRef : ∀ (l : List Arg) (f : Nat → Arg) (p p2 : List Call) (i i2 : Nat),
    argsOk p i l = true →
    (∀ d, d < i → retAt p d = true → argOk p2 i2 (f d) = true) →
    argsOk p2 i2 (mapRefList f l) = true
  | [], f, p, p2, i, i2, h, hc => by simp [argsOk, mapRefList]
  | a :: rest, f, p, p2, i, i2, h, hc => by
    simp only [argsOk, mapRefList, Bool.and_eq_true] at h ⊢
    exact ⟨argOk_mapRef a f p p2 i i2 h.1 hc, argsOk_mapRef rest f p p2 i i2 h.2 hc⟩

end

mutual

theorem argOk_mutVal : ∀ (a : Arg) (n : Nat) (p : List Call) (i : Nat),
    argOk p i (mutVal n a) = argOk p i a
  | .constArg be s v, n, p, i => by simp [argOk, mutVal]
  | .dataArg bs, n, p, i => by simp [argOk, mutVal]
  | .csumArg s v k, n, p, i => by simp [argOk, mutVal]
  | .resultRef d, n, p, i => by simp [argOk, mutVal]
  | .groupArg gs, n, p, i => by
    simp only [argOk, mutVal]
    exact argsOk_mutVal gs n p i
  | .ptrArg ad pe, n, p, i => by
    simp only [argOk, mutVal]
    exact argOk_mutVal pe n p i

theorem argsOk_mutVal : ∀ (l : List Arg) (n : Nat) (p : List Call) (i : Nat),
    argsOk p i (mutValList n l) = argsOk p i l
  | [], n, p, i => by simp [argsOk, mutValList]
  | a :: rest, n, p, i => by
    simp only [argsOk, mutValList]
    rw [argOk_mutVal a n p i, argsOk_mutVal rest n p i]

end

theorem callsOk_transfer : ∀ (l p p2 : List Call) (i : Nat),
    callsOk p i l = true →
    (∀ d, d < i + l.length → retAt p d = true → retAt p2 d = true) →
    callsOk p2 i l = true
  | [], p, p2, i, h, hc => by simp [callsOk]
  | c :: rest, p, p2, i, h, hc => by
    simp only [callsOk, Bool.and_eq_true] at h ⊢
    refine ⟨?_, ?_⟩
    · exact argsOk_transfer c.args p p2 i i h.1
        (fun d hd hr _ => ⟨hd, hc d (by simp; omega) hr⟩)
    · exact callsOk_transfer rest p p2 (i + 1) h.2
        (fun d hd hr => hc d (by simp at hd ⊢; omega) hr)

theorem callsOk_mapRefs : ∀ (l : List Call) (f : Nat → Arg) (p p2 : List Call) (i i2 : Nat),
    callsOk p i l = true →
    (∀ j d, d < i + j → retAt p d = true → argOk p2 (i2 + j) (f d) = true) →
    callsOk p2 i2 (l.map (mapCallRefs f)) = true
  | [], f, p, p2, i, i2, h, hc => by simp [callsOk]
  | c :: rest, f, p, p2, i, i2, h, hc => by
    simp only [callsOk, Bool.and_eq_true, List.map_cons] at h ⊢
    refine ⟨?_, ?_⟩
    · show argsOk p2 i2 (mapCallRefs f c).args = true
      show argsOk p2 i2 (mapRefList f c.args) = true
      exact argsOk_mapRef c.args f p p2 i i2 h.1
        (fun d hd hr => by simpa using hc 0 d (by omega) hr)
    · exact callsOk_mapRefs rest f p p2 (i + 1) (i2 + 1) h.2
        (fun j d hd hr => by
          have := hc (j + 1) d (by omega) hr
          have heq : i2 + (j + 1) = i2 + 1 + j := by omega
          rwa [heq] at this)

/-! ### Position bookkeeping for the edits -/

theorem retAt_mapped (l : List Call) (f : Nat → Arg) (m : Nat) :
    retAt (l.map (mapCallRefs f)) m = retAt l m := by
  unfold retAt
  rw [List.get?_map]
  cases l.get? m <;> rfl

theorem retAt_append_right (A B : List Call) (d : Nat) (h : A.length ≤ d) :
    retAt (A ++ B) d = retAt B (d - A.length) := by
  unfold retAt
  rw [List.get?_append_right h]

theorem retAt_take_lt (p rest : List Call) (k d : Nat) (hk : k ≤ p.length) (h : d < k) :
    retAt (p.take k ++ rest) d = retAt p d := by
  unfold retAt
  rw [List.get?_append (by simp; omega), List.get?_take h]

theorem retAt_cons_zero (c : Call) (l : List Call) : retAt (c :: l) 0 = c.ret := rfl

theorem retAt_cons_succ (c : Call) (l : List Call) (m : Nat) :
    retAt (c :: l) (m + 1) = retAt l m := rfl

theorem producersUpTo_spec (p : List Call) (k : Nat) :
    ∀ d ∈ producersUpTo p k, d < k ∧ retAt p d = true := by
  intro d hd
  unfold producersUpTo at hd
  obtain ⟨h1, h2⟩ := List.mem_filter.mp hd
  exact ⟨List.mem_range.mp h1, h2⟩

/-! ### Every edit preserves the no-dangling-reference invariant -/

theorem wf_insertCall (p : List Call) (k : Nat) (c : Call) (hk : k ≤ p.length)
    (hwf : callsOk p 0 p = true)
    (hc : argsOk (insertCall p k c) k c.args = true) :
    callsOk (insertCall p k c) 0 (insertCall p k c) = true := by
  have htl : (p.take k).length = k := by simp; omega
  have hsplit : callsOk p 0 (p.take k ++ p.drop k) = true := by
    rw [List.take_append_drop]; exact hwf
  rw [callsOk_append, htl, Bool.and_eq_true] at hsplit
  have hretPre : ∀ d, d < k → retAt (insertCall p k c) d = retAt p d := by
    intro d hd
    unfold insertCall
    exact retAt_take_lt p _ k d hk hd
  have hretPost : ∀ m, retAt (insertCall p k c) (k + 1 + m) = retAt p (k + m) := by
    intro m
    unfold insertCall
    rw [retAt_append_right _ _ _ (by omega)]
    rw [htl]
    have : k + 1 + m - k = m + 1 := by omega
    rw [this, retAt_cons_succ, retAt_mapped]
    unfold retAt
    rw [List.get?_drop]
  show callsOk (insertCall p k c) 0 (insertCall p k c) = true
  nth_rewrite 2 [show insertCall p k c
    = p.take k ++ c :: (p.drop k).map (mapCallRefs (shiftRef k)) from rfl]
  rw [callsOk_append, htl, Bool.and_eq_true]
  refine ⟨?_, ?_⟩
  · exact callsOk_transfer _ p _ 0 hsplit.1
      (fun d hd hr => by rw [hretPre d (by rw [htl] at hd; omega)]; exact hr)
  · show callsOk (insertCall p k c) (0 + k) (c :: (p.drop k).map (mapCallRefs (shiftRef k))) = true
    simp only [Nat.zero_add, callsOk, Bool.and_eq_true]
    refine ⟨hc, ?_⟩
    refine callsOk_mapRefs (p.drop k) (shiftRef k) p _ k (k + 1) (by simpa using hsplit.2) ?_
    intro j d hd hr
    unfold shiftRef
    by_cases hdk : k ≤ d
    · rw [if_pos hdk]
      have hlt : d + 1 < k + 1 + j := by omega
      have hret : retAt (insertCall p k c) (d + 1) = true := by
        have : d + 1 = k + 1 + (d - k) := by omega
        rw [this, hretPost]
        have : k + (d - k) = d := by omega
        rw [this]
        exact hr
      simp [argOk, hlt, hret]
    · rw [if_neg hdk]
      have hlt : d < k + 1 + j := by omega
      have hret : retAt (insertCall p k c) d = true := by
        rw [hretPre d (by omega)]; exact hr
      simp [argOk, hlt, hret]

theorem drop_cons_of_get? (p : List Call) (k : Nat) (c : Call) (h : p.get? k = some c) :
    p.drop k = c :: p.drop (k + 1) := by
  obtain ⟨hlt, hget⟩ := List.get?_eq_some.mp h
  rw [List.drop_eq_get_cons hlt, hget]

theorem wf_removeCall (p : List Call) (k : Nat) (hwf : callsOk p 0 p = true) :
    callsOk (removeCall p k) 0 (removeCall p k) = true := by
  by_cases hk : k < p.length
  case neg =>
    have h1 : p.take k = p := List.take_of_length_le (by omega)
    have h2 : p.drop (k + 1) = [] := List.drop_eq_nil_of_le (by omega)
    unfold removeCall
    rw [h1, h2]
    simpa using hwf
  case pos =>
    have htl : (p.take k).length = k := by simp; omega
    have hsplitk : callsOk p 0 (p.take k ++ p.drop k) = true := by
      rw [List.take_append_drop]; exact hwf
    rw [callsOk_append, htl, Bool.and_eq_true] at hsplitk
    have hsplitk1 : callsOk p 0 (p.take (k + 1) ++ p.drop (k + 1)) = true := by
      rw [List.take_append_drop]; exact hwf
    rw [callsOk_append, (by simp; omega : (p.take (k + 1)).length = k + 1),
      Bool.and_eq_true] at hsplitk1
    have hretPre : ∀ d, d < k → retAt (removeCall p k) d = retAt p d := by
      intro d hd
      unfold removeCall
      exact retAt_take_lt p _ k d (by omega) hd
    have hretPost : ∀ m, retAt (removeCall p k) (k + m) = retAt p (k + 1 + m) := by
      intro m
      unfold removeCall
      rw [retAt_append_right _ _ _ (by omega), htl]
      have : k + m - k = m := by omega
      rw [this, retAt_mapped]
      unfold retAt
      rw [List.get?_drop]
    show callsOk (removeCall p k) 0 (removeCall p k) = true
    nth_rewrite 2 [show removeCall p k
      = p.take k ++ (p.drop (k + 1)).map (mapCallRefs (removeRef k)) from rfl]
    rw [callsOk_append, htl, Bool.and_eq_true]
    refine ⟨?_, ?_⟩
    · exact callsOk_transfer _ p _ 0 hsplitk.1
        (fun d hd hr => by rw [hretPre d (by rw [htl] at hd; omega)]; exact hr)
    · show callsOk (removeCall p k) (0 + k) ((p.drop (k + 1)).map (mapCallRefs (removeRef k))) = true
      simp only [Nat.zero_add]
      refine callsOk_mapRefs (p.drop (k + 1)) (removeRef k) p _ (k + 1) k
        (by simpa using hsplitk1.2) ?_
      intro j d hd hr
      unfold removeRef
      by_cases hdk : d = k
      · rw [if_pos hdk]
        simp [argOk, invalidHandle]
      · rw [if_neg hdk]
        by_cases hgt : k < d
        · rw [if_pos hgt]
          have hlt : d - 1 < k + j := by omega
          have hret : retAt (removeCall p k) (d - 1) = true := by
            have he : d - 1 = k + (d - 1 - k) := by omega
            rw [he, hretPost]
            have : k + 1 + (d - 1 - k) = d := by omega
            rw [this]
            exact hr
          simp [argOk, hlt, hret]
        · rw [if_neg hgt]
          have hlt : d < k + j := by omega
          have hret : retAt (removeCall p k) d = true := by
            rw [hretPre d (by omega)]; exact hr
          simp [argOk, hlt, hret]

theorem wf_mutateArgEdit (p : List Call) (k n : Nat) (hwf : callsOk p 0 p = true) :
    callsOk (mutateArgEdit p k n) 0 (mutateArgEdit p k n) = true := by
  cases hg : p.get? k with
  | none => unfold mutateArgEdit; rw [hg]; exact hwf
  | some c =>
    obtain ⟨hk, _⟩ := List.get?_eq_some.mp hg
    have htl : (p.take k).length = k := by simp; omega
    have hsplitk : callsOk p 0 (p.take k ++ p.drop k) = true := by
      rw [List.take_append_drop]; exact hwf
    rw [callsOk_append, htl, Bool.and_eq_true] at hsplitk
    have hdropk : p.drop k = c :: p.drop (k + 1) := drop_cons_of_get? p k c hg
    have hretAll : ∀ d, retAt (mutateArgEdit p k n) d = retAt p d := by
      intro d
      unfold mutateArgEdit
      rw [hg]
      rcases Nat.lt_trichotomy d k with hd | hd | hd
      · exact retAt_take_lt p _ k d (by omega) hd
      · subst hd
        rw [retAt_append_right _ _ _ (by omega), htl, Nat.sub_self, retAt_cons_zero]
        unfold retAt
        rw [hg]
        rfl
      · rw [retAt_append_right _ _ _ (by omega), htl]
        have he : d - k = (d - k - 1) + 1 := by omega
        rw [he, retAt_cons_succ]
        unfold retAt
        rw [List.get?_drop]
        have : k + 1 + (d - k - 1) = d := by omega
        rw [this]
    have hsrc : argsOk p k c.args = true ∧ callsOk p (k + 1) (p.drop (k + 1)) = true := by
      have h2 := hsplitk.2
      rw [Nat.zero_add, hdropk] at h2
      simp only [callsOk, Bool.and_eq_true] at h2
      exact h2
    show callsOk (mutateArgEdit p k n) 0 (mutateArgEdit p k n) = true
    nth_rewrite 2 [show mutateArgEdit p k n
      = p.take k ++ ⟨c.name, mutValList n c.args, c.ret⟩ :: p.drop (k + 1) by
        unfold mutateArgEdit; rw [hg]]
    rw [callsOk_append, htl, Bool.and_eq_true]
    refine ⟨?_, ?_⟩
    · exact callsOk_transfer _ p _ 0 hsplitk.1
        (fun d hd hr => by rw [hretAll d]; exact hr)
    · show callsOk (mutateArgEdit p k n) (0 + k)
        (⟨c.name, mutValList n c.args, c.ret⟩ :: p.drop (k + 1)) = true
      simp only [Nat.zero_add, callsOk, Bool.and_eq_true]
      refine ⟨?_, ?_⟩
      · show argsOk (mutateArgEdit p k n) k (mutValList n c.args) = true
        rw [argsOk_mutVal]
        exact argsOk_transfer c.args p _ k k hsrc.1
          (fun d hd hr _ => ⟨hd, by rw [hretAll d]; exact hr⟩)
      · exact callsOk_transfer _ p _ (k + 1) hsrc.2
          (fun d hd hr => by rw [hretAll d]; exact hr)

theorem wf_swapAdj (p : List Call) (k : Nat) (hwf : callsOk p 0 p = true) :
    callsOk (swapAdj p k) 0 (swapAdj p k) = true := by
  unfold swapAdj
  cases hga : p.get? k with
  | none => exact hwf
  | some a =>
    cases hgb : p.get? (k + 1) with
    | none => exact hwf
    | some b =>
      show callsOk
        (if hasRefToCall k b then p
         else p.take k ++ b :: a :: (p.drop (k + 2)).map (mapCallRefs (swapRef k))) 0
        (if hasRefToCall k b then p
         else p.take k ++ b :: a :: (p.drop (k + 2)).map (mapCallRefs (swapRef k))) = true
      by_cases hdep : hasRefToCall k b
      · rw [if_pos hdep]; exact hwf
      · rw [if_neg hdep]
        obtain ⟨hk1, _⟩ := List.get?_eq_some.mp hgb
        have hk : k < p.length := by omega
        have htl : (p.take k).length = k := by simp; omega
        have hsplitk : callsOk p 0 (p.take k ++ p.drop k) = true := by
          rw [List.take_append_drop]; exact hwf
        rw [callsOk_append, htl, Bool.and_eq_true] at hsplitk
        have hdropk : p.drop k = a :: b :: p.drop (k + 2) := by
          rw [drop_cons_of_get? p k a hga, drop_cons_of_get? p (k + 1) b hgb]
        have hsrc : argsOk p k a.args = true ∧ argsOk p (k + 1) b.args = true ∧
            callsOk p (k + 2) (p.drop (k + 2)) = true := by
          have h2 := hsplitk.2
          rw [Nat.zero_add, hdropk] at h2
          simp only [callsOk, Bool.and_eq_true] at h2
          exact ⟨h2.1, h2.2.1, by
            have := h2.2.2
            simpa using this⟩
        set q := p.take k ++ b :: a :: (p.drop (k + 2)).map (mapCallRefs (swapRef k)) with hq
        have hretPre : ∀ d, d < k → retAt q d = retAt p d := by
          intro d hd
          rw [hq]
          exact retAt_take_lt p _ k d (by omega) hd
        have hretK : retAt q k = b.ret := by
          rw [hq, retAt_append_right _ _ _ (by omega), htl, Nat.sub_self, retAt_cons_zero]
        have hretK1 : retAt q (k + 1) = a.ret := by
          rw [hq, retAt_append_right _ _ _ (by omega), htl]
          have : k + 1 - k = 0 + 1 := by omega
          rw [this, retAt_cons_succ, retAt_cons_zero]
        have hretPost : ∀ m, retAt q (k + 2 + m) = retAt p (k + 2 + m) := by
          intro m
          rw [hq, retAt_append_right _ _ _ (by omega), htl]
          have : k + 2 + m - k = m + 1 + 1 := by omega
          rw [this, retAt_cons_succ, retAt_cons_succ, retAt_mapped]
          unfold retAt
          rw [List.get?_drop]
        have hpa : retAt p k = a.ret := by unfold retAt; rw [hga]; rfl
        have hpb : retAt p (k + 1) = b.ret := by unfold retAt; rw [hgb]; rfl
        show callsOk q 0 q = true
        nth_rewrite 2 [hq]
        rw [callsOk_append, htl, Bool.and_eq_true]
        refine ⟨?_, ?_⟩
        · exact callsOk_transfer _ p _ 0 hsplitk.1
            (fun d hd hr => by rw [hretPre d (by rw [htl] at hd; omega)]; exact hr)
        · show callsOk q (0 + k)
            (b :: a :: (p.drop (k + 2)).map (mapCallRefs (swapRef k))) = true
          simp only [Nat.zero_add, callsOk, Bool.and_eq_true]
          refine ⟨?_, ?_, ?_⟩
          · exact argsOk_transfer b.args p q (k + 1) k hsrc.2.1
              (fun d hd hr href => by
                by_cases hdk : d = k
                · subst hdk
                  exact absurd href (by simpa [hasRefToCall] using hdep)
                · have hdlt : d < k := by omega
                  exact ⟨hdlt, by rw [hretPre d hdlt]; exact hr⟩)
          · exact argsOk_transfer a.args p q k (k + 1) hsrc.1
              (fun d hd hr _ => ⟨by omega, by rw [hretPre d hd]; exact hr⟩)
          · refine callsOk_mapRefs (p.drop (k + 2)) (swapRef k) p q (k + 2) (k + 2)
              hsrc.2.2 ?_
            intro j d hd hr
            unfold swapRef
            by_cases hdk : d = k
            · rw [if_pos hdk]
              have hret : retAt q (k + 1) = true := by
                rw [hretK1, ← hpa, ← hdk]; exact hr
              simp only [argOk, Bool.and_eq_true, decide_eq_true_eq]
              exact ⟨by omega, hret⟩
            · rw [if_neg hdk]
              by_cases hdk1 : d = k + 1
              · rw [if_pos hdk1]
                have hret : retAt q k = true := by
                  rw [hretK, ← hpb, ← hdk1]; exact hr
                simp only [argOk, Bool.and_eq_true, decide_eq_true_eq]
                exact ⟨by omega, hret⟩
              · rw [if_neg hdk1]
                have hret : retAt q d = true := by
                  rcases Nat.lt_or_ge d k with hlt | hge
                  · rw [hretPre d hlt]; exact hr
                  · have : d = k + 2 + (d - k - 2) := by omega
                    rw [this, hretPost]
                    rw [← this]
                    exact hr
                simp only [argOk, Bool.and_eq_true, decide_eq_true_eq]
                exact ⟨by omega, hret⟩

theorem wf_insert_generated (p : List Call) (pos : Nat) (r : Rnd)
    (hpos : pos ≤ p.length) (hwf : callsOk p 0 p = true) :
    callsOk (insertCall p pos (genCall (producersUpTo p pos) r).1) 0
      (insertCall p pos (genCall (producersUpTo p pos) r).1) = true := by
  apply wf_insertCall p pos _ hpos hwf
  apply genCall_ok
  intro d hd
  obtain ⟨h1, h2⟩ := producersUpTo_spec p pos d hd
  refine ⟨h1, ?_⟩
  unfold insertCall
  rw [retAt_take_lt p _ pos d hpos h1]
  exact h2

theorem wf_spliceEdit : ∀ (m : Nat) (p : List Call) (k : Nat) (r : Rnd),
    callsOk p 0 p = true →
    callsOk (spliceEdit p k m r).1 0 (spliceEdit p k m r).1 = true
  | 0, p, k, r, hwf => by simpa [spliceEdit] using hwf
  | m + 1, p, k, r, hwf => by
    simp only [spliceEdit]
    exact wf_spliceEdit m _ (k + 1) _
      (wf_insert_generated p (min k p.length) r (Nat.min_le_right _ _) hwf)

/-- One mutation step preserves the no-dangling-reference invariant. -/
theorem wf_Mutate (p : Prog) (r : Rnd) (hwf : wfProg p = true) :
    wfProg (Mutate p r).1 = true := by
  have hwf' : callsOk p.Calls 0 p.Calls = true := hwf
  unfold Mutate
  split
  · show callsOk (insertCall p.Calls (r.next.2.next.1 % (p.Calls.length + 1))
        (genCall (producersUpTo p.Calls (r.next.2.next.1 % (p.Calls.length + 1)))
          r.next.2.next.2).1) 0
      (insertCall p.Calls (r.next.2.next.1 % (p.Calls.length + 1))
        (genCall (producersUpTo p.Calls (r.next.2.next.1 % (p.Calls.length + 1)))
          r.next.2.next.2).1) = true
    exact wf_insert_generated p.Calls _ _
      (Nat.lt_succ_iff.mp (Nat.mod_lt _ (Nat.succ_pos _))) hwf'
  · exact wf_removeCall p.Calls _ hwf'
  · exact wf_mutateArgEdit p.Calls _ _ hwf'
  · exact wf_spliceEdit 2 p.Calls _ _ hwf'
  · exact wf_swapAdj p.Calls _ hwf'

/-- Iterate `Mutate` `n` times, threading the random source. -/
def mutateN : Nat → Prog → Rnd → Prog × Rnd
  | 0, p, r => (p, r)
  | n + 1, p, r => mutateN n (Mutate p r).1 (Mutate p r).2

theorem wf_mutateN : ∀ (n : Nat) (p : Prog) (r : Rnd),
    wfProg p = true → wfProg (mutateN n p r).1 = true
  | 0, p, r, hwf => hwf
  | n + 1, p, r, hwf => wf_mutateN n _ _ (wf_Mutate p r hwf)

/-- C1: every Program produced by `Generate` and then subjected to an
arbitrary finite sequence of `Mutate` edits satisfies the invariant that
every ResultArg use-reference resolves to a ResultArg definition occurring
earlier in program order within the same Program — no mutation sequence
leaves a dangling Resource reference. -/
theorem generated_then_mutated_no_dangling (r0 r1 : Rnd) (size n : Nat) :
    wfProg (mutateN n (Generate r0 size).1 r1).1 = true :=
  wf_mutateN n _ r1 (wfProg_Generate r0 size)

/-! ### The checksum pass succeeds on every generated program -/

mutual
/-- The patch walk succeeds on this argument. -/
def argPassOk : Arg → Bool
  | .groupArg gs => groupPassOk gs gs
  | .ptrArg _ pe => argPassOk pe
  | _ => true

/-- The patch walk succeeds on this member of a structure whose sibling
list is `ctx`. -/
def memberPassOk (ctx : List Arg) : Arg → Bool
  | .csumArg _ _ CsumKind.inet => true
  | .csumArg _ _ (CsumKind.pseudo r) => decide (r < ctx.length)
  | a => argPassOk a

def groupPassOk (ctx : List Arg) : List Arg → Bool
  | [] => true
  | a :: rest => memberPassOk ctx a && groupPassOk ctx rest
end

mutual

theorem patchArg_isOk : ∀ (a : Arg), argPassOk a = true → ∃ b, patchArg a = Except.ok b
  | .constArg be s v, _ => ⟨_, patchArg_const be s v⟩
  | .dataArg bs, _ => ⟨_, patchArg_data bs⟩
  | .csumArg s v k, _ => ⟨_, patchArg_csum s v k⟩
  | .resultRef d, _ => ⟨_, patchArg_res d⟩
  | .groupArg gs, h => by
    obtain ⟨ys, hys⟩ := patchInGroup_isOk gs gs (by simpa [argPassOk] using h)
    exact ⟨.groupArg ys, by rw [patchArg_group, hys]⟩
  | .ptrArg ad pe, h => by
    obtain ⟨p2, hp2⟩ := patchArg_isOk pe (by simpa [argPassOk] using h)
    exact ⟨.ptrArg ad p2, by rw [patchArg_ptr, hp2]⟩

theorem patchOne_isOk : ∀ (ctx : List Arg) (a : Arg),
    memberPassOk ctx a = true → ∃ b, patchOne ctx a = Except.ok b
  | ctx, .constArg be s v, h => by
    rw [patchOne_const]
    exact patchArg_isOk _ (by simp [argPassOk])
  | ctx, .dataArg bs, h => by
    rw [patchOne_data]
    exact patchArg_isOk _ (by simp [argPassOk])
  | ctx, .resultRef d, h => by
    rw [patchOne_res]
    exact patchArg_isOk _ (by simp [argPassOk])
  | ctx, .groupArg gs, h => by
    rw [patchOne_group]
    exact patchArg_isOk _ (by simpa [memberPassOk] using h)
  | ctx, .ptrArg ad pe, h => by
    rw [patchOne_ptr]
    exact patchArg_isOk _ (by simpa [memberPassOk] using h)
  | ctx, .csumArg s v CsumKind.inet, h => ⟨_, patchOne_inet ctx s v⟩
  | ctx, .csumArg s v (CsumKind.pseudo r), h => by
    have hr : r < ctx.length := by simpa [memberPassOk] using h
    have ht : ctx.get? r = some (ctx.get ⟨r, hr⟩) := List.get?_eq_get hr
    exact ⟨_, by rw [patchOne_pseudo, ht]⟩

theorem patchInGroup_isOk : ∀ (ctx xs : List Arg),
    groupPassOk ctx xs = true → ∃ ys, patchInGroup ctx xs = Except.ok ys
  | ctx, [], _ => ⟨[], patchInGroup_nil ctx⟩
  | ctx, a :: rest, h => by
    have h2 : memberPassOk ctx a = true ∧ groupPassOk ctx rest = true := by
      simpa [groupPassOk, Bool.and_eq_true] using h
    obtain ⟨b, hb⟩ := patchOne_isOk ctx a h2.1
    obtain ⟨ys, hys⟩ := patchInGroup_isOk ctx rest h2.2
    exact ⟨b :: ys, by rw [patchInGroup_cons, hb, hys]⟩

end

theorem genArgs_len : ∀ (fs : List TypeD) (producers : List Nat) (r : Rnd),
    (genArgs producers r fs).1.length = fs.length
  | [], producers, r => by simp [genArgs]
  | f :: rest, producers, r => by
    simp [genArgs, genArgs_len rest producers (genArg producers r f).2]

mutual

theorem genArg_passOk : ∀ (t : TypeD) (producers : List Nat) (r : Rnd),
    wfT t = true → argPassOk (genArg producers r t).1 = true
  | .intT be sz mx, producers, r, _ => by simp [genArg, argPassOk]
  | .bufT, producers, r, _ => by simp [genArg, argPassOk]
  | .csumT sz k, producers, r, _ => by simp [genArg, argPassOk]
  | .resT, producers, r, _ => by
    match producers with
    | [] => simp [genArg, argPassOk, invalidHandle]
    | q :: qs => simp [genArg, argPassOk]
  | .ptrT e, producers, r, h => by
    have ih := genArg_passOk e producers r.next.2 (by simpa [wfT] using h)
    simp only [genArg, argPassOk]
    exact ih
  | .structT fs, producers, r, h => by
    have hlen : (genArgs producers r fs).1.length = fs.length := genArgs_len fs producers r
    have ih := genArgsMembers_ok fs producers r (genArgs producers r fs).1 fs.length
      (by simpa [wfT] using h) (by omega)
    simp only [genArg, argPassOk]
    exact ih

theorem genArgsMembers_ok : ∀ (fs : List TypeD) (producers : List Nat) (r : Rnd)
    (ctx : List Arg) (n : Nat),
    wfFields n fs = true → n ≤ ctx.length →
    groupPassOk ctx (genArgs producers r fs).1 = true
  | [], producers, r, ctx, n, _, _ => by simp [genArgs, groupPassOk]
  | .csumT sz (CsumKind.pseudo r0) :: rest, producers, r, ctx, n, hw, hn => by
    have hw2 : r0 < n ∧ wfFields n rest = true := by
      simpa [wfFields, Bool.and_eq_true] using hw
    have ih := genArgsMembers_ok rest producers
      (genArg producers r (.csumT sz (CsumKind.pseudo r0))).2 ctx n hw2.2 hn
    simp only [genArg] at ih
    have hr0 : r0 < ctx.length := by omega
    simp [genArgs, genArg, groupPassOk, memberPassOk, hr0, ih]
  | .csumT sz CsumKind.inet :: rest, producers, r, ctx, n, hw, hn => by
    have hw2 : wfFields n rest = true := by
      simpa [wfFields, wfT, Bool.and_eq_true] using hw
    have ih := genArgsMembers_ok rest producers
      (genArg producers r (.csumT sz CsumKind.inet)).2 ctx n hw2 hn
    simp only [genArg] at ih
    simp [genArgs, genArg, groupPassOk, memberPassOk, ih]
  | .intT be sz mx :: rest, producers, r, ctx, n, hw, hn => by
    have hw2 : wfFields n rest = true := by
      simpa [wfFields, wfT, Bool.and_eq_true] using hw
    have ih := genArgsMembers_ok rest producers
      (genArg producers r (.intT be sz mx)).2 ctx n hw2 hn
    simp only [genArg] at ih
    simp [genArgs, genArg, groupPassOk, memberPassOk, argPassOk, ih]
  | .bufT :: rest, producers, r, ctx, n, hw, hn => by
    have hw2 : wfFields n rest = true := by
      simpa [wfFields, wfT, Bool.and_eq_true] using hw
    have ih := genArgsMembers_ok rest producers
      (genArg producers r .bufT).2 ctx n hw2 hn
    simp only [genArg] at ih
    simp [genArgs, genArg, groupPassOk, memberPassOk, argPassOk, ih]
  | .resT :: rest, producers, r, ctx, n, hw, hn => by
    have hw2 : wfFields n rest = true := by
      simpa [wfFields, wfT, Bool.and_eq_true] using hw
    match producers with
    | [] =>
      have ih := genArgsMembers_ok rest []
        (genArg [] r .resT).2 ctx n hw2 hn
      simp only [genArg] at ih
      simp [genArgs, genArg, groupPassOk, memberPassOk, argPassOk, invalidHandle, ih]
    | q :: qs =>
      have ih := genArgsMembers_ok rest (q :: qs)
        (genArg (q :: qs) r .resT).2 ctx n hw2 hn
      simp only [genArg] at ih
      simp [genArgs, genArg, groupPassOk, memberPassOk, argPassOk, ih]
  | .ptrT e :: rest, producers, r, ctx, n, hw, hn => by
    have hw2 : wfT e = true ∧ wfFields n rest = true := by
      simpa [wfFields, wfT, Bool.and_eq_true] using hw
    have hhead := genArg_passOk (.ptrT e) producers r (by simpa [wfT] using hw2.1)
    have ih := genArgsMembers_ok rest producers
      (genArg producers r (.ptrT e)).2 ctx n hw2.2 hn
    simp only [genArg, argPassOk] at hhead ih
    simp [genArgs, genArg, groupPassOk, memberPassOk, argPassOk, hhead, ih]
  | .structT fs2 :: rest, producers, r, ctx, n, hw, hn => by
    have hw2 : wfT (.structT fs2) = true ∧ wfFields n rest = true := by
      simpa [wfFields, Bool.and_eq_true] using hw
    have hhead := genArg_passOk (.structT fs2) producers r hw2.1
    have ih := genArgsMembers_ok rest producers
      (genArg producers r (.structT fs2)).2 ctx n hw2.2 hn
    simp only [genArg, argPassOk] at hhead ih
    simp [genArgs, genArg, groupPassOk, memberPassOk, argPassOk, hhead, ih]

end

theorem calcChecksumsCall_isOk (c : Call) (h : groupPassOk c.args c.args = true) :
    (calcChecksumsCall c).isOk = true := by
  obtain ⟨ys, hys⟩ := patchInGroup_isOk c.args c.args h
  unfold calcChecksumsCall
  rw [hys]
  rfl

theorem table_wf : ∀ cd ∈ table, wfFields cd.args.length cd.args = true := by
  intro cd hcd
  simp only [table, List.mem_cons, List.not_mem_nil, or_false] at hcd
  rcases hcd with rfl | rfl | rfl | rfl <;> rfl

theorem genCall_passOk (producers : List Nat) (r : Rnd) :
    groupPassOk (genCall producers r).1.args (genCall producers r).1.args = true := by
  simp only [genCall]
  cases hg : table.get? (r.next.1 % table.length) with
  | none =>
    simp [genArgs, groupPassOk]
  | some cd =>
    have hmem : cd ∈ table := List.get?_mem hg
    have hw := table_wf cd hmem
    have hlen := genArgs_len cd.args producers r.next.2
    simpa using genArgsMembers_ok cd.args producers r.next.2
      (genArgs producers r.next.2 cd.args).1 cd.args.length hw (by omega)

theorem genCalls_passOk : ∀ (n i : Nat) (producers : List Nat) (r : Rnd) (c : Call),
    c ∈ (genCalls n i producers r).1 → (calcChecksumsCall c).isOk = true
  | 0, i, producers, r, c, hc => by simp [genCalls] at hc
  | n + 1, i, producers, r, c, hc => by
    simp only [genCalls, List.mem_cons] at hc
    rcases hc with rfl | hc
    · exact calcChecksumsCall_isOk _ (genCall_passOk producers r)
    · exact genCalls_passOk n (i + 1) _ _ c hc

/-- The scenario's program batch: `m` programs of size bound 10 generated
from one random source, threading the source between programs. -/
def genProgs : Nat → Rnd → List Prog
  | 0, _ => []
  | m + 1, r => (Generate r 10).1 :: genProgs m (Generate r 10).2

theorem genProgs_pass : ∀ (m : Nat) (r : Rnd),
    ((genProgs m r).all fun p => p.Calls.all fun c => (calcChecksumsCall c).isOk) = true
  | 0, r => by simp [genProgs]
  | m + 1, r => by
    simp only [genProgs, List.all_cons, Bool.and_eq_true]
    refine ⟨?_, genProgs_pass m _⟩
    rw [List.all_eq_true]
    intro c hc
    exact genCalls_passOk 10 0 [] r c hc

/-- C8: generating 100 Programs of size bound 10 from a fixed random seed
and running the checksum field-patch pass on every Call of every generated
Program raises no invariant violation: every checksum span resolves inside
its enclosing structure, and the pass's failure branch is unreachable on
internally generated Programs. -/
theorem generated_checksum_pass_ok (r : Rnd) :
    ((genProgs 100 r).all fun p => p.Calls.all fun c => (calcChecksumsCall c).isOk) = true :=
  genProgs_pass 100 r

/-! ### The serializer and deserializer

Modelled from the spec (§4.3, §6): the textual wire form is modelled at
token granularity — `callname(arg1, arg2, ...)` per call, pointer arguments
as an address annotation followed by the pointee, struct literals as
brace-bracketed comma-separated children, byte buffers as quoted strings,
result uses as `rN` references.  Serialization zeroes checksum fields and
reassigns pointer addresses sequentially; parsing is directed by the
descriptor table and rejects unknown call names, arity mismatches and
out-of-range literals with a descriptive error. -/

inductive Token where
  | callTok (n : Nat)
  | lparen
  | rparen
  | lbrace
  | rbrace
  | comma
  | num (v : Nat)
  | amp (addr : Nat)
  | str (bytes : List Nat)
  | ref (idx : Nat)
deriving Repr, DecidableEq

inductive ParseErr where
  | unknownCall (n : Nat)
  | valueOutOfRange (v : Nat)
  | malformed (what : String)
deriving Repr, DecidableEq

/-- Look a call descriptor up by name. -/
def lookupCall (n : Nat) : Option CallD :=
  table.find? (fun cd => cd.name == n)

mutual
/-- Serialize one argument; `n` is the sequential pointer-address counter
("addresses are reassigned sequentially"), checksum fields serialize as
zero ("checksums are zeroed on serialization"). -/
def serializeArg (n : Nat) : Arg → List Token × Nat
  | .constArg _ _ v => ([.num v], n)
  | .dataArg bs => ([.str bs], n)
  | .groupArg gs =>
    ((.lbrace :: (serializeArgsComma n gs).1) ++ [.rbrace], (serializeArgsComma n gs).2)
  | .ptrArg _ pe => (.amp n :: (serializeArg (n + 1) pe).1, (serializeArg (n + 1) pe).2)
  | .csumArg _ _ _ => ([.num 0], n)
  | .resultRef d => ([.ref d], n)

/-- Serialize a comma-separated argument list. -/
def serializeArgsComma (n : Nat) : List Arg → List Token × Nat
  | [] => ([], n)
  | [a] => serializeArg n a
  | a :: b :: rest =>
    ((serializeArg n a).1 ++ .comma :: (serializeArgsComma (serializeArg n a).2 (b :: rest)).1,
     (serializeArgsComma (serializeArg n a).2 (b :: rest)).2)
end

def serializeCall (n : Nat) (c : Call) : List Token × Nat :=
  (.callTok c.name :: .lparen :: (serializeArgsComma n c.args).1 ++ [.rparen],
   (serializeArgsComma n c.args).2)

def serializeCalls (n : Nat) : List Call → List Token × Nat
  | [] => ([], n)
  | c :: rest =>
    ((serializeCall n c).1 ++ (serializeCalls (serializeCall n c).2 rest).1,
     (serializeCalls (serializeCall n c).2 rest).2)

/-- Modelled from the spec: serialization of a Program to the textual
form. -/
def Serialize (p : Prog) : List Token :=
  (serializeCalls 0 p.Calls).1

mutual
/-- Parse one argument of the given descriptor type from the token stream,
returning the argument and the remaining tokens. -/
def parseArg : TypeD → List Token → Except ParseErr (Arg × List Token)
  | .intT be sz mx, .num v :: rest =>
    if v ≤ mx then .ok (.constArg be sz v, rest) else .error (.valueOutOfRange v)
  | .intT _ _ _, _ => .error (.malformed "expected integer literal")
  | .bufT, .str bs :: rest => .ok (.dataArg bs, rest)
  | .bufT, _ => .error (.malformed "expected byte string literal")
  | .ptrT e, .amp a :: rest =>
    match parseArg e rest with
    | .ok (pe, rest2) => .ok (.ptrArg a pe, rest2)
    | .error e2 => .error e2
  | .ptrT _, _ => .error (.malformed "expected pointer annotation")
  | .structT fs, .lbrace :: rest =>
    match parseFieldsComma fs rest with
    | .ok (gs, .rbrace :: rest2) => .ok (.groupArg gs, rest2)
    | .ok (_, _) => .error (.malformed "expected closing brace")
    | .error e2 => .error e2
  | .structT _, _ => .error (.malformed "expected opening brace")
  | .csumT sz kind, .num _ :: rest => .ok (.csumArg sz 0 kind, rest)
  | .csumT _ _, _ => .error (.malformed "expected checksum literal")
  | .resT, .ref d :: rest => .ok (.resultRef d, rest)
  | .resT, .num v :: rest => .ok (.constArg false 8 v, rest)
  | .resT, _ => .error (.malformed "expected resource reference")

/-- Parse a comma-separated argument list against the declared field
types; a count mismatch surfaces as a parse error. -/
def parseFieldsComma : List TypeD → List Token → Except ParseErr (List Arg × List Token)
  | [], toks => .ok ([], toks)
  | [t], toks =>
    match parseArg t toks with
    | .ok (a, rest) => .ok ([a], rest)
    | .error e2 => .error e2
  | t :: t2 :: ts, toks =>
    match parseArg t toks with
    | .ok (a, .comma :: rest) =>
      match parseFieldsComma (t2 :: ts) rest with
      | .ok (as2, rest2) => .ok (a :: as2, rest2)
      | .error e2 => .error e2
    | .ok (_, _) => .error (.malformed "expected comma")
    | .error e2 => .error e2
end

/-- Parse one call: the name must be known, the argument list must match
the declared arity and types. -/
def parseCall : List Token → Except ParseErr (Call × List Token)
  | .callTok n :: rest =>
    match lookupCall n with
    | none => .error (.unknownCall n)
    | some cd =>
      match rest with
      | .lparen :: rest1 =>
        match parseFieldsComma cd.args rest1 with
        | .ok (args, .rparen :: rest2) => .ok (⟨cd.name, args, cd.ret⟩, rest2)
        | .ok (_, _) => .error (.malformed "expected closing paren")
        | .error e2 => .error e2
      | _ => .error (.malformed "expected opening paren")
  | _ => .error (.malformed "expected call name")

/-- Parse a sequence of calls until the stream is exhausted; the fuel is
an upper bound on the number of calls. -/
def deserializeCalls : Nat → List Token → Except ParseErr (List Call)
  | _, [] => .ok []
  | 0, _ :: _ => .error (.malformed "call budget exhausted")
  | fuel + 1, t :: toks =>
    match parseCall (t :: toks) with
    | .ok (c, rest) =>
      match deserializeCalls fuel rest with
      | .ok cs => .ok (c :: cs)
      | .error e2 => .error e2
    | .error e2 => .error e2

/-- Modelled from the spec: `Deserialize` — parse a textual Program;
all-or-nothing, returning either a whole Program or a parse error. -/
def Deserialize (toks : List Token) : Except ParseErr Prog :=
  match deserializeCalls toks.length toks with
  | .ok cs => .ok ⟨cs⟩
  | .error e2 => .error e2

mutual
/-- The serialization normal form of an argument: checksum fields zeroed,
pointer addresses reassigned sequentially from counter `n`; every other
value kept byte-identical. -/
def normArg (n : Nat) : Arg → Arg × Nat
  | .constArg be s v => (.constArg be s v, n)
  | .dataArg bs => (.dataArg bs, n)
  | .groupArg gs => (.groupArg (normArgs n gs).1, (normArgs n gs).2)
  | .ptrArg _ pe => (.ptrArg n (normArg (n + 1) pe).1, (normArg (n + 1) pe).2)
  | .csumArg s _ k => (.csumArg s 0 k, n)
  | .resultRef d => (.resultRef d, n)

def normArgs (n : Nat) : List Arg → List Arg × Nat
  | [] => ([], n)
  | a :: rest =>
    ((normArg n a).1 :: (normArgs (normArg n a).2 rest).1,
     (normArgs (normArg n a).2 rest).2)
end

def normCall (n : Nat) (c : Call) : Call × Nat :=
  (⟨c.name, (normArgs n c.args).1, c.ret⟩, (normArgs n c.args).2)

def normCalls (n : Nat) : List Call → List Call × Nat
  | [] => ([], n)
  | c :: rest =>
    ((normCall n c).1 :: (normCalls (normCall n c).2 rest).1,
     (normCalls (normCall n c).2 rest).2)

/-- The deliberate normalization performed by a serialize/parse round
trip. -/
def normProg (p : Prog) : Prog :=
  ⟨(normCalls 0 p.Calls).1⟩

mutual
/-- Forget exactly the normalized fields: checksum values and pointer
addresses are zeroed; everything else is kept. -/
def eraseArg : Arg → Arg
  | .ptrArg _ pe => .ptrArg 0 (eraseArg pe)
  | .csumArg s _ k => .csumArg s 0 k
  | .groupArg gs => .groupArg (eraseArgs gs)
  | a => a

def eraseArgs : List Arg → List Arg
  | [] => []
  | a :: rest => eraseArg a :: eraseArgs rest
end

def eraseCall (c : Call) : Call :=
  ⟨c.name, eraseArgs c.args, c.ret⟩

def eraseProg (p : Prog) : Prog :=
  ⟨p.Calls.map eraseCall⟩

mutual
/-- Shape and domain conformance of an argument to its descriptor type:
scalar byte order/width match and the value is within the declared range;
resource slots hold either a use-reference or the 8-byte invalid-handle
constant form. -/
def wfArgT : TypeD → Arg → Bool
  | .intT be sz mx, .constArg be2 sz2 v =>
    decide (be2 = be) && decide (sz2 = sz) && decide (v ≤ mx)
  | .bufT, .dataArg _ => true
  | .ptrT e, .ptrArg _ pe => wfArgT e pe
  | .structT fs, .groupArg gs => wfArgsT fs gs
  | .csumT sz k, .csumArg sz2 _ k2 => decide (sz2 = sz) && decide (k2 = k)
  | .resT, .resultRef _ => true
  | .resT, .constArg be sz _ => decide (be = false) && decide (sz = 8)
  | _, _ => false

def wfArgsT : List TypeD → List Arg → Bool
  | [], [] => true
  | t :: ts, a :: rest => wfArgT t a && wfArgsT ts rest
  | _, _ => false
end

/-- A call is valid when its name is known and its arguments conform to
the descriptor. -/
def wfCallT (c : Call) : Bool :=
  match lookupCall c.name with
  | some cd => decide (c.ret = cd.ret) && wfArgsT cd.args c.args
  | none => false

/-- A valid in-memory Program relative to the descriptor table. -/
def wfProgT (p : Prog) : Bool :=
  p.Calls.all wfCallT

/-! ### Inversion lemmas for argument validity -/

theorem wfArgT_intT {be : Bool} {sz mx : Nat} {a : Arg}
    (h : wfArgT (.intT be sz mx) a = true) :
    ∃ v, a = .constArg be sz v ∧ v ≤ mx := by
  cases a <;> simp [wfArgT] at h
  obtain ⟨⟨h1, h2⟩, h3⟩ := h
  exact ⟨_, by rw [h1, h2], h3⟩

theorem wfArgT_bufT {a : Arg} (h : wfArgT .bufT a = true) :
    ∃ bs, a = .dataArg bs := by
  cases a <;> simp [wfArgT] at h
  exact ⟨_, rfl⟩

theorem wfArgT_ptrT {e : TypeD} {a : Arg} (h : wfArgT (.ptrT e) a = true) :
    ∃ ad pe, a = .ptrArg ad pe ∧ wfArgT e pe = true := by
  cases a <;> simp [wfArgT] at h
  exact ⟨_, _, rfl, h⟩

theorem wfArgT_structT {fs : List TypeD} {a : Arg} (h : wfArgT (.structT fs) a = true) :
    ∃ gs, a = .groupArg gs ∧ wfArgsT fs gs = true := by
  cases a <;> simp [wfArgT] at h
  exact ⟨_, rfl, h⟩

theorem wfArgT_csumT {sz : Nat} {k : CsumKind} {a : Arg}
    (h : wfArgT (.csumT sz k) a = true) :
    ∃ v, a = .csumArg sz v k := by
  cases a <;> simp [wfArgT] at h
  exact ⟨_, by rw [h.1, h.2]⟩

theorem wfArgT_resT {a : Arg} (h : wfArgT .resT a = true) :
    (∃ d, a = .resultRef d) ∨ (∃ v, a = .constArg false 8 v) := by
  cases a <;> simp [wfArgT] at h
  · exact Or.inr ⟨_, by rw [h.1, h.2]⟩
  · exact Or.inl ⟨_, rfl⟩

theorem wfArgsT_nil {as : List Arg} (h : wfArgsT [] as = true) : as = [] := by
  cases as with
  | nil => rfl
  | cons a rest => simp [wfArgsT] at h

theorem wfArgsT_cons {t : TypeD} {ts : List TypeD} {as : List Arg}
    (h : wfArgsT (t :: ts) as = true) :
    ∃ a rest, as = a :: rest ∧ wfArgT t a = true ∧ wfArgsT ts rest = true := by
  cases as with
  | nil => simp [wfArgsT] at h
  | cons a rest =>
    simp only [wfArgsT, Bool.and_eq_true] at h
    exact ⟨a, rest, rfl, h.1, h.2⟩

/-! ### Round trip: parsing inverts serialization up to normalization -/

mutual

theorem parse_serialize_arg : ∀ (t : TypeD) (a : Arg), wfArgT t a = true →
    ∀ (n : Nat) (rest : List Token),
      parseArg t ((serializeArg n a).1 ++ rest) = .ok ((normArg n a).1, rest) ∧
      (serializeArg n a).2 = (normArg n a).2
  | .intT be sz mx, a, h, n, rest => by
    obtain ⟨v, rfl, hv⟩ := wfArgT_intT h
    simp [serializeArg, parseArg, normArg, hv]
  | .bufT, a, h, n, rest => by
    obtain ⟨bs, rfl⟩ := wfArgT_bufT h
    simp [serializeArg, parseArg, normArg]
  | .ptrT e, a, h, n, rest => by
    obtain ⟨ad, pe, rfl, hpe⟩ := wfArgT_ptrT h
    have ih := parse_serialize_arg e pe hpe (n + 1) rest
    simp only [serializeArg, normArg, List.cons_append]
    simp only [parseArg, ih.1]
    exact ⟨trivial, ih.2⟩
  | .structT fs, a, h, n, rest => by
    obtain ⟨gs, rfl, hgs⟩ := wfArgT_structT h
    have ih := parse_serialize_fields fs gs hgs n (Token.rbrace :: rest)
    simp only [serializeArg, normArg]
    have hshape : ((Token.lbrace :: (serializeArgsComma n gs).1) ++ [Token.rbrace]) ++ rest
        = Token.lbrace :: ((serializeArgsComma n gs).1 ++ (Token.rbrace :: rest)) := by
      simp
    rw [hshape]
    simp only [parseArg, ih.1]
    exact ⟨trivial, ih.2⟩
  | .csumT sz k, a, h, n, rest => by
    obtain ⟨v, rfl⟩ := wfArgT_csumT h
    simp [serializeArg, parseArg, normArg]
  | .resT, a, h, n, rest => by
    rcases wfArgT_resT h with ⟨d, rfl⟩ | ⟨v, rfl⟩ <;>
      simp [serializeArg, parseArg, normArg]

theorem parse_serialize_fields : ∀ (ts : List TypeD) (as : List Arg), wfArgsT ts as = true →
    ∀ (n : Nat) (rest : List Token),
      parseFieldsComma ts ((serializeArgsComma n as).1 ++ rest)
        = .ok ((normArgs n as).1, rest) ∧
      (serializeArgsComma n as).2 = (normArgs n as).2
  | [], as, h, n, rest => by
    have h0 := wfArgsT_nil h
    subst h0
    simp [serializeArgsComma, parseFieldsComma, normArgs]
  | [t], as, h, n, rest => by
    obtain ⟨a, rest2, rfl, ha, hrest⟩ := wfArgsT_cons h
    have h0 := wfArgsT_nil hrest
    subst h0
    have ih := parse_serialize_arg t a ha n rest
    show parseFieldsComma [t] ((serializeArg n a).1 ++ rest)
        = .ok ((normArgs n [a]).1, rest) ∧ (serializeArg n a).2 = (normArgs n [a]).2
    simp only [parseFieldsComma, ih.1]
    refine ⟨rfl, ?_⟩
    show (serializeArg n a).2 = (normArgs (normArg n a).2 []).2
    simp [normArgs, ih.2]
  | t :: t2 :: ts, as, h, n, rest => by
    obtain ⟨a, as1, rfl, ha, h1⟩ := wfArgsT_cons h
    obtain ⟨b, as2, rfl, hb, h2⟩ := wfArgsT_cons h1
    have iha := parse_serialize_arg t a ha n
      (Token.comma :: ((serializeArgsComma (serializeArg n a).2 (b :: as2)).1 ++ rest))
    have ihrest := parse_serialize_fields (t2 :: ts) (b :: as2)
      (by simp [wfArgsT, hb, h2]) (serializeArg n a).2 rest
    simp only [serializeArgsComma]
    rw [List.append_assoc, List.cons_append]
    simp only [parseFieldsComma, iha.1]
    simp only [ihrest.1]
    refine ⟨?_, ?_⟩
    · show Except.ok ((normArg n a).1
          :: (normArgs (serializeArg n a).2 (b :: as2)).1, rest)
        = .ok ((normArgs n (a :: b :: as2)).1, rest)
      rw [iha.2]
      rfl
    · show (serializeArgsComma (serializeArg n a).2 (b :: as2)).2
        = (normArgs n (a :: b :: as2)).2
      rw [ihrest.2, iha.2]
      rfl

end

theorem lookupCall_name (n : Nat) (cd : CallD) (h : lookupCall n = some cd) :
    cd.name = n := by
  unfold lookupCall at h
  have := List.find?_some h
  simpa using this

theorem parse_serialize_call (c : Call) (h : wfCallT c = true) (n : Nat) (rest : List Token) :
    parseCall ((serializeCall n c).1 ++ rest) = .ok ((normCall n c).1, rest) ∧
    (serializeCall n c).2 = (normCall n c).2 := by
  unfold wfCallT at h
  cases hl : lookupCall c.name with
  | none => rw [hl] at h; simp at h
  | some cd =>
    rw [hl] at h
    simp only [Bool.and_eq_true, decide_eq_true_eq] at h
    obtain ⟨hret, hargs⟩ := h
    have hname := lookupCall_name c.name cd hl
    have hf := parse_serialize_fields cd.args c.args hargs n (Token.rparen :: rest)
    have hshape : (serializeCall n c).1 ++ rest
        = Token.callTok c.name :: Token.lparen
          :: ((serializeArgsComma n c.args).1 ++ (Token.rparen :: rest)) := by
      simp [serializeCall]
    rw [hshape]
    simp only [parseCall, hl, hf.1]
    constructor
    · show Except.ok ((⟨cd.name, (normArgs n c.args).1, cd.ret⟩ : Call), rest)
        = Except.ok ((normCall n c).1, rest)
      rw [hname, ← hret]
      rfl
    · show (serializeArgsComma n c.args).2 = (normCall n c).2
      exact hf.2

theorem parse_serialize_calls : ∀ (cs : List Call) (n fuel : Nat),
    (∀ c ∈ cs, wfCallT c = true) → cs.length ≤ fuel →
    deserializeCalls fuel ((serializeCalls n cs).1) = .ok ((normCalls n cs).1)
  | [], n, fuel, _, _ => by
    simp [serializeCalls, normCalls]
    cases fuel <;> rfl
  | c :: cs, n, fuel, hall, hlen => by
    match fuel, hlen with
    | fuel + 1, hl2 =>
      have hc := parse_serialize_call c (hall c (by simp)) n
        ((serializeCalls (serializeCall n c).2 cs).1)
      have ih := parse_serialize_calls cs (serializeCall n c).2 fuel
        (fun x hx => hall x (by simp [hx]))
        (by simp only [List.length_cons] at hl2; omega)
      have hshape : (serializeCalls n (c :: cs)).1
          = Token.callTok c.name :: (Token.lparen
            :: ((serializeArgsComma n c.args).1 ++ [Token.rparen])
            ++ (serializeCalls (serializeCall n c).2 cs).1) := by
        simp [serializeCalls, serializeCall]
      rw [hshape]
      simp only [deserializeCalls]
      have hc1 := hc.1
      have hfix : (serializeCall n c).1 ++ (serializeCalls (serializeCall n c).2 cs).1
          = Token.callTok c.name :: (Token.lparen
            :: ((serializeArgsComma n c.args).1 ++ [Token.rparen])
            ++ (serializeCalls (serializeCall n c).2 cs).1) := by
        simp [serializeCall]
      rw [hfix] at hc1
      rw [hc1]
      show (match deserializeCalls fuel ((serializeCalls (serializeCall n c).2 cs).1) with
          | Except.ok cs2 => Except.ok ((normCall n c).1 :: cs2)
          | Except.error e2 => Except.error e2) = Except.ok ((normCalls n (c :: cs)).1)
      rw [ih, hc.2]
      rfl

theorem serializeCalls_len : ∀ (cs : List Call) (n : Nat),
    cs.length ≤ ((serializeCalls n cs).1).length
  | [], n => by simp [serializeCalls]
  | c :: cs, n => by
    have ih := serializeCalls_len cs (serializeCall n c).2
    simp only [serializeCalls, List.length_append, List.length_cons]
    have : 1 ≤ ((serializeCall n c).1).length := by
      simp [serializeCall]
    omega

mutual

theorem erase_normArg : ∀ (a : Arg) (n : Nat), eraseArg (normArg n a).1 = eraseArg a
  | .constArg be s v, n => rfl
  | .dataArg bs, n => rfl
  | .csumArg s v k, n => rfl
  | .resultRef d, n => rfl
  | .groupArg gs, n => by
    show eraseArg (.groupArg (normArgs n gs).1) = eraseArg (.groupArg gs)
    simp only [eraseArg]
    exact congrArg Arg.groupArg (erase_normArgs gs n)
  | .ptrArg ad pe, n => by
    show eraseArg (.ptrArg n (normArg (n + 1) pe).1) = eraseArg (.ptrArg ad pe)
    simp only [eraseArg]
    exact congrArg (Arg.ptrArg 0) (erase_normArg pe (n + 1))

theorem erase_normArgs : ∀ (l : List Arg) (n : Nat), eraseArgs (normArgs n l).1 = eraseArgs l
  | [], n => rfl
  | a :: rest, n => by
    show eraseArgs ((normArg n a).1 :: (normArgs (normArg n a).2 rest).1)
      = eraseArgs (a :: rest)
    simp only [eraseArgs]
    rw [erase_normArg a n, erase_normArgs rest (normArg n a).2]

end

theorem erase_normCalls : ∀ (cs : List Call) (n : Nat),
    ((normCalls n cs).1).map eraseCall = cs.map eraseCall
  | [], n => rfl
  | c :: rest, n => by
    show eraseCall (normCall n c).1
        :: ((normCalls (normCall n c).2 rest).1).map eraseCall
      = eraseCall c :: rest.map eraseCall
    rw [erase_normCalls rest (normCall n c).2]
    show eraseCall ⟨c.name, (normArgs n c.args).1, c.ret⟩ :: _ = _
    unfold eraseCall
    rw [erase_normArgs c.args n]

/-- C5: serializing a valid in-memory Program to the textual form and
re-parsing yields exactly the Program's normal form — argument values are
byte-identical to the original except checksum fields, which are zeroed,
and pointer addresses, which are reassigned sequentially; erasing exactly
those normalized fields from both programs gives identical results. -/
theorem serialize_parse_roundtrip (p : Prog) (h : wfProgT p = true) :
    Deserialize (Serialize p) = Except.ok (normProg p) ∧
    eraseProg (normProg p) = eraseProg p := by
  constructor
  · have hall : ∀ c ∈ p.Calls, wfCallT c = true := by
      simpa [wfProgT, List.all_eq_true] using h
    have hlen := serializeCalls_len p.Calls 0
    unfold Deserialize Serialize normProg
    rw [parse_serialize_calls p.Calls 0 _ hall hlen]
  · unfold eraseProg normProg
    show Prog.mk (((normCalls 0 p.Calls).1).map eraseCall) = Prog.mk (p.Calls.map eraseCall)
    rw [erase_normCalls p.Calls 0]

/-- Witness for C5: a concrete valid three-call program — resource
producer, a consumer with a pointed-to checksummed struct, and a buffer
consumer — round-trips to its normal form (checksum value `7` zeroed,
pointer address `99` reassigned to the counter value `0`). -/
theorem serialize_parse_roundtrip_witness :
    Deserialize (Serialize ⟨[⟨0, [.constArg false 4 5], true⟩,
        ⟨1, [.resultRef 0, .ptrArg 99 (.groupArg
          [.csumArg 2 7 CsumKind.inet, .constArg true 2 3, .dataArg [4]])], false⟩,
        ⟨2, [.resultRef 0, .dataArg [1, 2]], false⟩]⟩)
      = Except.ok (normProg ⟨[⟨0, [.constArg false 4 5], true⟩,
        ⟨1, [.resultRef 0, .ptrArg 99 (.groupArg
          [.csumArg 2 7 CsumKind.inet, .constArg true 2 3, .dataArg [4]])], false⟩,
        ⟨2, [.resultRef 0, .dataArg [1, 2]], false⟩]⟩) ∧
    eraseProg (normProg ⟨[⟨0, [.constArg false 4 5], true⟩,
        ⟨1, [.resultRef 0, .ptrArg 99 (.groupArg
          [.csumArg 2 7 CsumKind.inet, .constArg true 2 3, .dataArg [4]])], false⟩,
        ⟨2, [.resultRef 0, .dataArg [1, 2]], false⟩]⟩)
      = eraseProg ⟨[⟨0, [.constArg false 4 5], true⟩,
        ⟨1, [.resultRef 0, .ptrArg 99 (.groupArg
          [.csumArg 2 7 CsumKind.inet, .constArg true 2 3, .dataArg [4]])], false⟩,
        ⟨2, [.resultRef 0, .dataArg [1, 2]], false⟩]⟩ :=
  serialize_parse_roundtrip _ (by rfl)

/-! ### Rejection of malformed textual programs -/

theorem parseArg_rparen (t : TypeD) (rest : List Token) :
    ∃ e, parseArg t (Token.rparen :: rest) = .error e := by
  cases t <;> simp [parseArg]

theorem parseArg_comma (t : TypeD) (rest : List Token) :
    ∃ e, parseArg t (Token.comma :: rest) = .error e := by
  cases t <;> simp [parseArg]

theorem wfArgsT_nil2 : ∀ {ts : List TypeD}, wfArgsT ts [] = true → ts = [] := by
  intro ts h
  cases ts with
  | nil => rfl
  | cons t ts => simp [wfArgsT] at h

theorem wfArgsT_cons2 : ∀ {ts : List TypeD} {a : Arg} {rest : List Arg},
    wfArgsT ts (a :: rest) = true →
    ∃ t ts2, ts = t :: ts2 ∧ wfArgT t a = true ∧ wfArgsT ts2 rest = true := by
  intro ts a rest h
  cases ts with
  | nil => simp [wfArgsT] at h
  | cons t ts2 =>
    simp only [wfArgsT, Bool.and_eq_true] at h
    exact ⟨t, ts2, rfl, h.1, h.2⟩

theorem wfArgsT_snoc : ∀ (as : List Arg) (ts : List TypeD) (a : Arg),
    wfArgsT ts (as ++ [a]) = true →
    ∃ ts2 t, ts = ts2 ++ [t] ∧ wfArgsT ts2 as = true ∧ wfArgT t a = true
  | [], ts, a, h => by
    obtain ⟨t, ts2, rfl, ht, hrest⟩ := wfArgsT_cons2 (by simpa using h)
    have := wfArgsT_nil2 hrest
    subst this
    exact ⟨[], t, rfl, rfl, ht⟩
  | b :: as, ts, a, h => by
    obtain ⟨t, ts2, rfl, ht, hrest⟩ := wfArgsT_cons2 (by simpa using h)
    obtain ⟨ts3, tl, rfl, h1, h2⟩ := wfArgsT_snoc as ts2 a hrest
    exact ⟨t :: ts3, tl, rfl, by simp [wfArgsT, ht, h1], h2⟩

/-- Parsing a field list against one more declared field than serialized
arguments fails: after the last serialized argument the parser meets the
closing parenthesis where an argument or separator is required. -/
theorem parse_missing_fields : ∀ (ts2 : List TypeD) (as : List Arg) (tl : TypeD)
    (n : Nat) (rest : List Token), wfArgsT ts2 as = true →
    ∃ e, parseFieldsComma (ts2 ++ [tl])
      ((serializeArgsComma n as).1 ++ Token.rparen :: rest) = .error e
  | [], as, tl, n, rest, h => by
    have h0 := wfArgsT_nil h
    subst h0
    obtain ⟨e, he⟩ := parseArg_rparen tl rest
    refine ⟨e, ?_⟩
    show parseFieldsComma [tl] (Token.rparen :: rest) = .error e
    simp only [parseFieldsComma, he]
  | [t], as, tl, n, rest, h => by
    obtain ⟨a, rest2, rfl, ha, hrest⟩ := wfArgsT_cons h
    have h0 := wfArgsT_nil hrest
    subst h0
    have hp := parse_serialize_arg t a ha n (Token.rparen :: rest)
    refine ⟨.malformed "expected comma", ?_⟩
    show parseFieldsComma (t :: [tl])
      ((serializeArg n a).1 ++ Token.rparen :: rest) = _
    simp only [parseFieldsComma, hp.1]
  | t :: t2 :: ts, as, tl, n, rest, h => by
    obtain ⟨a, as1, rfl, ha, h1⟩ := wfArgsT_cons h
    obtain ⟨b, as2, rfl, hb, h2⟩ := wfArgsT_cons h1
    have hp := parse_serialize_arg t a ha n
      (Token.comma :: ((serializeArgsComma (serializeArg n a).2 (b :: as2)).1
        ++ Token.rparen :: rest))
    obtain ⟨e, he⟩ := parse_missing_fields (t2 :: ts) (b :: as2) tl
      (serializeArg n a).2 rest (by simp [wfArgsT, hb, h2])
    refine ⟨e, ?_⟩
    show parseFieldsComma ((t :: t2 :: ts) ++ [tl])
      (((serializeArg n a).1 ++ Token.comma
        :: (serializeArgsComma (serializeArg n a).2 (b :: as2)).1)
        ++ Token.rparen :: rest) = .error e
    rw [List.append_assoc, List.cons_append]
    have he2 : parseFieldsComma (t2 :: ts.append [tl])
        ((serializeArgsComma (serializeArg n a).2 (b :: as2)).1 ++ Token.rparen :: rest)
      = Except.error e := he
    simp only [List.cons_append, parseFieldsComma, hp.1, he2]

theorem serializeArg_head (a : Arg) (n : Nat) :
    ∃ tok tl2, (serializeArg n a).1 = tok :: tl2 ∧
      tok ≠ Token.rparen ∧ tok ≠ Token.comma := by
  cases a <;> simp [serializeArg]

theorem serializeArgsComma_snoc : ∀ (as : List Arg) (x : Arg) (n : Nat) (b : Arg)
    (rest : List Arg), as = b :: rest →
    (serializeArgsComma n (as ++ [x])).1
      = (serializeArgsComma n as).1 ++ Token.comma
        :: (serializeArg (serializeArgsComma n as).2 x).1
  | _, x, n, b, [], rfl => by
    simp [serializeArgsComma]
  | _, x, n, b, c :: rest, rfl => by
    have ih := serializeArgsComma_snoc (c :: rest) x (serializeArg n b).2 c rest rfl
    show ((serializeArg n b).1 ++ Token.comma
        :: (serializeArgsComma (serializeArg n b).2 ((c :: rest) ++ [x])).1)
      = ((serializeArg n b).1 ++ Token.comma
        :: (serializeArgsComma (serializeArg n b).2 (c :: rest)).1)
        ++ Token.comma :: (serializeArg (serializeArgsComma n (b :: c :: rest)).2 x).1
    rw [ih]
    have hc : (serializeArgsComma n (b :: c :: rest)).2
        = (serializeArgsComma (serializeArg n b).2 (c :: rest)).2 := rfl
    rw [hc]
    simp

mutual
/-- Does the argument contain any result use-reference at all? -/
def argHasRef : Arg → Bool
  | .groupArg gs => argsHaveRef gs
  | .ptrArg _ pe => argHasRef pe
  | .resultRef _ => true
  | _ => false

def argsHaveRef : List Arg → Bool
  | [] => false
  | a :: rest => argHasRef a || argsHaveRef rest
end

def progHasRef (p : Prog) : Bool :=
  p.Calls.any (fun c => argsHaveRef c.args)

/-- Non-vacuity of the generator and mutator model: a concretely seeded
run produces a ten-call program that contains result use-references, and
after five mutations the program still contains result use-references —
the no-dangling invariant is maintained on programs that genuinely thread
resources. -/
theorem generator_emits_references :
    progHasRef (Generate ⟨1⟩ 10).1 = true ∧
    (Generate ⟨1⟩ 10).1.Calls.length = 10 ∧
    progHasRef (mutateN 5 (Generate ⟨1⟩ 10).1 ⟨7⟩).1 = true := by
  refine ⟨by decide, by decide, by decide⟩

theorem deserialize_of_parseCall_error (t : Token) (toks : List Token) (e : ParseErr)
    (h : parseCall (t :: toks) = .error e) : Deserialize (t :: toks) = .error e := by
  simp only [Deserialize, List.length_cons, deserializeCalls, h]

/-- The kind of leading token each descriptor type accepts: an integer or
checksum field starts with a numeric literal, a buffer with a byte string,
a pointer with an address annotation, a struct with an opening brace, a
resource slot with a use-reference or a constant handle literal. -/
def accepts : TypeD → Token → Bool
  | .intT _ _ _, .num _ => true
  | .bufT, .str _ => true
  | .ptrT _, .amp _ => true
  | .structT _, .lbrace => true
  | .csumT _ _, .num _ => true
  | .resT, .ref _ => true
  | .resT, .num _ => true
  | _, _ => false

/-- A literal of the wrong kind for the declared type is rejected. -/
theorem parseArg_not_accepts (t : TypeD) (tok : Token) (rest : List Token)
    (h : accepts t tok = false) : ∃ e, parseArg t (tok :: rest) = .error e := by
  cases t <;> cases tok <;> simp_all [accepts, parseArg]

/-- The separator preceding the tokens of a field that follows the
serialized prefix `as1`: nothing when the prefix is empty, a comma
otherwise. -/
def sepTokens (as1 : List Arg) (X : List Token) : List Token :=
  match as1 with
  | [] => X
  | _ :: _ => Token.comma :: X

theorem serializeArgsComma_cons2 (a b : Arg) (T2 : List Arg) (n : Nat) :
    (serializeArgsComma n (a :: b :: T2)).1
      = (serializeArg n a).1 ++ Token.comma
        :: (serializeArgsComma (serializeArg n a).2 (b :: T2)).1 := rfl

theorem parse_serial_arg_for_oor (t : TypeD) (a : Arg) (ha : wfArgT t a = true)
    (n : Nat) (Y rest : List Token) :
    parseArg t ((serializeArg n a).1 ++ (Token.comma :: (Y ++ rest)))
      = .ok ((normArg n a).1, Token.comma :: (Y ++ rest)) :=
  (parse_serialize_arg t a ha n (Token.comma :: (Y ++ rest))).1

/-- Parsing a field list in which some field's declared type is `intT`
with bound `mx`, against a serialized argument list whose value at that
position is `w > mx`, fails with exactly the out-of-range error — for any
valid prefix, any following fields, and any continuation of the stream. -/
theorem parse_oor_fields : ∀ (ts1 : List TypeD) (as1 : List Arg),
    wfArgsT ts1 as1 = true →
    ∀ (be : Bool) (sz mx : Nat) (ts2 : List TypeD) (as2 : List Arg) (w n : Nat)
      (rest : List Token), mx < w →
    parseFieldsComma (ts1 ++ .intT be sz mx :: ts2)
      ((serializeArgsComma n (as1 ++ .constArg be sz w :: as2)).1 ++ rest)
      = .error (.valueOutOfRange w)
  | [], as1, h, be, sz, mx, ts2, as2, w, n, rest, hw => by
    have h0 := wfArgsT_nil h
    subst h0
    have hne : ¬ w ≤ mx := by omega
    cases as2 <;> cases ts2 <;>
      simp [serializeArgsComma, serializeArg, parseFieldsComma, parseArg, hne]
  | [t], as1, h, be, sz, mx, ts2, as2, w, n, rest, hw => by
    obtain ⟨a, rest2, rfl, ha, hrest⟩ := wfArgsT_cons h
    have h0 := wfArgsT_nil hrest
    subst h0
    have ih := parse_oor_fields [] [] rfl be sz mx ts2 as2 w
      (serializeArg n a).2 rest hw
    simp only [List.nil_append] at ih
    have hp := parse_serial_arg_for_oor t a ha n
      (serializeArgsComma (serializeArg n a).2 (.constArg be sz w :: as2)).1 rest
    show parseFieldsComma (t :: .intT be sz mx :: ts2)
      ((serializeArgsComma n (a :: .constArg be sz w :: as2)).1 ++ rest)
      = .error (.valueOutOfRange w)
    rw [serializeArgsComma_cons2, List.append_assoc, List.cons_append]
    simp only [parseFieldsComma, hp, ih]
  | t :: t2 :: ts, as1, h, be, sz, mx, ts2, as2, w, n, rest, hw => by
    obtain ⟨a, as3, rfl, ha, h1⟩ := wfArgsT_cons h
    obtain ⟨b, as4, rfl, hb, h2⟩ := wfArgsT_cons h1
    have ih := parse_oor_fields (t2 :: ts) (b :: as4) (by simp [wfArgsT, hb, h2])
      be sz mx ts2 as2 w (serializeArg n a).2 rest hw
    have hp := parse_serial_arg_for_oor t a ha n
      (serializeArgsComma (serializeArg n a).2
        (b :: (as4 ++ .constArg be sz w :: as2))).1 rest
    show parseFieldsComma (t :: (t2 :: ts) ++ .intT be sz mx :: ts2)
      ((serializeArgsComma n (a :: (b :: as4) ++ .constArg be sz w :: as2)).1 ++ rest)
      = .error (.valueOutOfRange w)
    rw [show a :: (b :: as4) ++ .constArg be sz w :: as2
      = a :: b :: (as4 ++ .constArg be sz w :: as2) from rfl]
    rw [serializeArgsComma_cons2, List.append_assoc, List.cons_append]
    simp only [List.cons_append, parseFieldsComma]
    rw [hp]
    have ih3 : parseFieldsComma (t2 :: ts.append (TypeD.intT be sz mx :: ts2))
        ((serializeArgsComma (serializeArg n a).2
          (b :: (as4 ++ Arg.constArg be sz w :: as2))).1 ++ rest)
      = .error (.valueOutOfRange w) := ih
    simp only [ih3]

/-- Parsing a field list in which some field's declared type meets a
leading token of the wrong kind fails — for any valid serialized prefix,
any following fields, and any continuation of the stream. -/
theorem parse_illtyped_fields : ∀ (ts1 : List TypeD) (as1 : List Arg),
    wfArgsT ts1 as1 = true →
    ∀ (t : TypeD) (ts2 : List TypeD) (tok : Token) (more : List Token) (n : Nat),
    accepts t tok = false →
    ∃ e, parseFieldsComma (ts1 ++ t :: ts2)
      ((serializeArgsComma n as1).1 ++ sepTokens as1 (tok :: more)) = .error e
  | [], as1, h, t, ts2, tok, more, n, hacc => by
    have h0 := wfArgsT_nil h
    subst h0
    obtain ⟨e, he⟩ := parseArg_not_accepts t tok more hacc
    cases ts2 with
    | nil =>
      refine ⟨e, ?_⟩
      show parseFieldsComma [t] (tok :: more) = .error e
      simp only [parseFieldsComma, he]
    | cons t2 ts3 =>
      refine ⟨e, ?_⟩
      show parseFieldsComma (t :: t2 :: ts3) (tok :: more) = .error e
      simp only [parseFieldsComma, he]
  | [t1], as1, h, t, ts2, tok, more, n, hacc => by
    obtain ⟨a, rest2, rfl, ha, hrest⟩ := wfArgsT_cons h
    have h0 := wfArgsT_nil hrest
    subst h0
    obtain ⟨e, he⟩ := parse_illtyped_fields [] [] rfl t ts2 tok more
      (serializeArg n a).2 hacc
    simp only [serializeArgsComma, sepTokens, List.nil_append] at he
    have hp := (parse_serialize_arg t1 a ha n (Token.comma :: (tok :: more))).1
    refine ⟨e, ?_⟩
    show parseFieldsComma (t1 :: t :: ts2)
      ((serializeArg n a).1 ++ (Token.comma :: (tok :: more))) = .error e
    simp only [parseFieldsComma, hp, he]
  | t1 :: t2 :: ts, as1, h, t, ts2, tok, more, n, hacc => by
    obtain ⟨a, as3, rfl, ha, h1⟩ := wfArgsT_cons h
    obtain ⟨b, as4, rfl, hb, h2⟩ := wfArgsT_cons h1
    obtain ⟨e, he⟩ := parse_illtyped_fields (t2 :: ts) (b :: as4)
      (by simp [wfArgsT, hb, h2]) t ts2 tok more (serializeArg n a).2 hacc
    have hp := (parse_serialize_arg t1 a ha n (Token.comma ::
      ((serializeArgsComma (serializeArg n a).2 (b :: as4)).1
        ++ (Token.comma :: (tok :: more))))).1
    refine ⟨e, ?_⟩
    show parseFieldsComma (t1 :: (t2 :: ts) ++ t :: ts2)
      ((serializeArgsComma n (a :: b :: as4)).1
        ++ sepTokens (a :: b :: as4) (tok :: more)) = .error e
    rw [serializeArgsComma_cons2,
      show sepTokens (a :: b :: as4) (tok :: more)
        = Token.comma :: (tok :: more) from rfl,
      List.append_assoc, List.cons_append]
    simp only [List.cons_append, parseFieldsComma, hp]
    have he2 : parseFieldsComma (t2 :: ts.append (t :: ts2))
        ((serializeArgsComma (serializeArg n a).2 (b :: as4)).1
          ++ (Token.comma :: (tok :: more))) = .error e := he
    simp only [he2]

/-- C7: `Deserialize` fails with a descriptive parse error on an unknown
call name, on an arity mismatch (one argument missing from, or one extra
argument appended to, any otherwise valid call), on an out-of-range
literal value (at any field position of any known call, for any
continuation of the program text), and on an ill-typed literal (a leading
token of the wrong kind at any field position of any known call); being a
pure function into `Except`, a failure returns only the error and never a
partially constructed Program. -/
theorem deserialize_rejects_malformed :
    (∀ (n2 : Nat) (rest : List Token), lookupCall n2 = none →
      Deserialize (Token.callTok n2 :: rest) = .error (.unknownCall n2)) ∧
    (∀ (c : Call) (cd : CallD), lookupCall c.name = some cd →
      wfArgsT cd.args c.args = true → ∀ hne : c.args ≠ [],
      ∃ e, Deserialize (Serialize ⟨[⟨c.name, c.args.dropLast, c.ret⟩]⟩) = .error e) ∧
    (∀ (c : Call) (cd : CallD) (extra : Arg), lookupCall c.name = some cd →
      wfArgsT cd.args c.args = true →
      ∃ e, Deserialize (Serialize ⟨[⟨c.name, c.args ++ [extra], c.ret⟩]⟩) = .error e) ∧
    (∀ (name : Nat) (cd : CallD) (ts1 ts2 : List TypeD) (be : Bool) (sz mx : Nat)
      (as1 as2 : List Arg) (w : Nat) (ret : Bool),
      lookupCall name = some cd →
      cd.args = ts1 ++ .intT be sz mx :: ts2 →
      wfArgsT ts1 as1 = true → mx < w →
      Deserialize (Serialize ⟨[⟨name, as1 ++ .constArg be sz w :: as2, ret⟩]⟩)
        = .error (.valueOutOfRange w)) ∧
    (∀ (name : Nat) (cd : CallD) (ts1 : List TypeD) (t : TypeD) (ts2 : List TypeD)
      (as1 : List Arg) (tok : Token) (more : List Token),
      lookupCall name = some cd →
      cd.args = ts1 ++ t :: ts2 →
      wfArgsT ts1 as1 = true →
      accepts t tok = false →
      ∃ e, Deserialize (Token.callTok name :: Token.lparen
        :: ((serializeArgsComma 0 as1).1 ++ sepTokens as1 (tok :: more)))
          = .error e) := by
  refine ⟨?_, ?_, ?_, ?_, ?_⟩
  · intro n2 rest hl
    apply deserialize_of_parseCall_error
    simp only [parseCall, hl]
  · intro c cd hl hwf hne
    have hsplit : c.args.dropLast ++ [c.args.getLast hne] = c.args :=
      List.dropLast_append_getLast hne
    have hwf2 : wfArgsT cd.args (c.args.dropLast ++ [c.args.getLast hne]) = true := by
      rw [hsplit]; exact hwf
    obtain ⟨ts2, tlast, hcd, hts2, _⟩ := wfArgsT_snoc c.args.dropLast cd.args _ hwf2
    obtain ⟨e, he⟩ := parse_missing_fields ts2 c.args.dropLast tlast 0 [] hts2
    refine ⟨e, ?_⟩
    have htok : Serialize ⟨[⟨c.name, c.args.dropLast, c.ret⟩]⟩
        = Token.callTok c.name :: (Token.lparen
          :: ((serializeArgsComma 0 c.args.dropLast).1 ++ [Token.rparen])) := by
      simp [Serialize, serializeCalls, serializeCall]
    rw [htok]
    apply deserialize_of_parseCall_error
    rw [← hcd] at he
    simp only [parseCall, hl]
    have he2 : parseFieldsComma cd.args
        ((serializeArgsComma 0 c.args.dropLast).1 ++ [Token.rparen]) = .error e := he
    simp only [he2]
  · intro c cd extra hl hwf
    cases hargs : c.args with
    | nil =>
      rw [hargs] at hwf
      have hcd := wfArgsT_nil2 hwf
      refine ⟨.malformed "expected closing paren", ?_⟩
      have htok : Serialize ⟨[⟨c.name, ([] : List Arg) ++ [extra], c.ret⟩]⟩
          = Token.callTok c.name :: (Token.lparen
            :: ((serializeArg 0 extra).1 ++ [Token.rparen])) := by
        simp [Serialize, serializeCalls, serializeCall, serializeArgsComma]
      rw [htok]
      apply deserialize_of_parseCall_error
      simp only [parseCall, hl, hcd]
      cases extra <;> simp [parseFieldsComma, serializeArg]
    | cons a as =>
      rw [hargs] at hwf
      refine ⟨.malformed "expected closing paren", ?_⟩
      have hsnoc := serializeArgsComma_snoc (a :: as) extra 0 a as rfl
      have hf := parse_serialize_fields cd.args (a :: as) hwf 0
        (Token.comma :: ((serializeArg (serializeArgsComma 0 (a :: as)).2 extra).1
          ++ [Token.rparen]))
      have htok : Serialize ⟨[⟨c.name, (a :: as) ++ [extra], c.ret⟩]⟩
          = Token.callTok c.name :: (Token.lparen
            :: ((serializeArgsComma 0 (a :: as)).1 ++ (Token.comma
              :: ((serializeArg (serializeArgsComma 0 (a :: as)).2 extra).1
                ++ [Token.rparen])))) := by
        simp only [Serialize, serializeCalls, serializeCall, List.cons_append,
          List.append_nil]
        rw [show a :: (as ++ [extra]) = (a :: as) ++ [extra] from rfl, hsnoc]
        simp
      rw [htok]
      apply deserialize_of_parseCall_error
      simp only [parseCall, hl, hf.1]
  · intro name cd ts1 ts2 be sz mx as1 as2 w ret hl hcd hwf hw
    have htok : Serialize ⟨[⟨name, as1 ++ .constArg be sz w :: as2, ret⟩]⟩
        = Token.callTok name :: (Token.lparen
          :: ((serializeArgsComma 0 (as1 ++ .constArg be sz w :: as2)).1
            ++ [Token.rparen])) := by
      simp [Serialize, serializeCalls, serializeCall]
    rw [htok]
    apply deserialize_of_parseCall_error
    have hoor := parse_oor_fields ts1 as1 hwf be sz mx ts2 as2 w 0 [Token.rparen] hw
    rw [← hcd] at hoor
    simp only [parseCall, hl, hoor]
  · intro name cd ts1 t ts2 as1 tok more hl hcd hwf hacc
    obtain ⟨e, he⟩ := parse_illtyped_fields ts1 as1 hwf t ts2 tok more 0 hacc
    rw [← hcd] at he
    refine ⟨e, ?_⟩
    apply deserialize_of_parseCall_error
    simp only [parseCall, hl, he]

/-- Witness for C7: the unknown name `99` is rejected with its descriptive
error; dropping the argument of a valid `open`-like call and appending an
extra argument to it are rejected; the out-of-range literal `2^32` at the
`open`-like call's integer field is rejected with the out-of-range error;
a byte-string literal where a resource slot is declared is rejected. -/
theorem deserialize_rejects_malformed_witness :
    Deserialize [Token.callTok 99] = .error (.unknownCall 99) ∧
    (∃ e, Deserialize (Serialize ⟨[⟨0, ([.constArg false 4 5] : List Arg).dropLast,
      true⟩]⟩) = .error e) ∧
    (∃ e, Deserialize (Serialize ⟨[⟨0, [.constArg false 4 5]
      ++ [.constArg false 4 6], true⟩]⟩) = .error e) ∧
    Deserialize (Serialize ⟨[⟨0, [] ++ .constArg false 4 0x100000000 :: [], true⟩]⟩)
      = .error (.valueOutOfRange 0x100000000) ∧
    (∃ e, Deserialize (Token.callTok 2 :: Token.lparen
      :: ((serializeArgsComma 0 []).1 ++ sepTokens [] (Token.str [7] :: [])))
        = .error e) :=
  ⟨deserialize_rejects_malformed.1 99 [] (by rfl),
   deserialize_rejects_malformed.2.1 ⟨0, [.constArg false 4 5], true⟩
     ⟨0, [.intT false 4 0xffffffff], true⟩ (by rfl) (by rfl) (by simp),
   deserialize_rejects_malformed.2.2.1 ⟨0, [.constArg false 4 5], true⟩
     ⟨0, [.intT false 4 0xffffffff], true⟩ (.constArg false 4 6) (by rfl) (by rfl),
   deserialize_rejects_malformed.2.2.2.1 0 ⟨0, [.intT false 4 0xffffffff], true⟩
     [] [] false 4 0xffffffff [] [] 0x100000000 true (by rfl) (by rfl) (by rfl)
     (by decide),
   deserialize_rejects_malformed.2.2.2.2 2 ⟨2, [.resT, .bufT], false⟩
     [] .resT [.bufT] [] (Token.str [7]) [] (by rfl) (by rfl) (by rfl) (by rfl)⟩

end SyzProg
